import Mathlib

/-!
# Bins of the collective profiler (`internal/pkg/bins/bins.go`)

A shallow embedding of the Go package `bins` and the properties of its
functions `Create`, `GetFromCounts`, `GetFromReader`, `getOutputFile`,
`FilesExist` and `GetFromInputDescr`.

Conventions of the embedding

* A Go `string` is a list of characters (`Str`).
* A Go `int` is a mathematical integer; every arithmetic operation of the
  source that can leave the 64-bit range is wrapped with `wrap64`
  (two's complement, the width of `int` on 64-bit platforms).
* A Go `error` is a value of `GoError`; `nil` is `none`.
* A run-time panic (index out of range) is an explicit outcome.
* The functions of other packages that the source calls
  (`notation.ConvertCompressedCallListToIntSlice`, `util.PathExists`,
  `filepath.Join`, the `counts` reader) are parameters of the definitions;
  `filepathJoin` is `filepath.Join` where the separator is `/`.
-/

namespace Bins

/-! ## Go values -/

/-- A Go string, as its sequence of characters. -/
abbrev Str := List Char

/-- Two's complement wrap-around of a Go `int` (64 bits). -/
def wrap64 (x : Int) : Int :=
  (x + 9223372036854775808) % 18446744073709551616 - 9223372036854775808

/-- Values a Go `int` can hold. -/
def inInt64 (x : Int) : Prop :=
  -9223372036854775808 ≤ x ∧ x < 9223372036854775808

instance (x : Int) : Decidable (inInt64 x) := by
  unfold inInt64; infer_instance

/-- Go `error` values that the package produces or passes on. -/
inductive GoError where
  /-- `fmt.Errorf("invalid number of calls (%d)", numCalls)` -/
  | invalidNumCalls (numCalls : Int)
  /-- `fmt.Errorf("invalid datatype size (%d)", datatypeSize)` -/
  | invalidDatatypeSize (datatypeSize : Int)
  /-- `fmt.Errorf("invalid number of ranks: %d", nRanks)` -/
  | invalidNumRanks (nRanks : Nat)
  /-- `*strconv.NumError` with `strconv.ErrSyntax` -/
  | atoiSyntax (s : Str)
  /-- `*strconv.NumError` with `strconv.ErrRange` -/
  | atoiRange (s : Str)
  /-- an error of the rank-list decoder -/
  | decodeErr (msg : Str)
  /-- an error of the counts reader other than `io.EOF` -/
  | readErr (msg : Str)
  deriving DecidableEq, Repr

/-! ## Standard library functions used by the package -/

/-- Scan of `strings.Split` for a non-empty separator: `skip` characters of a
separator occurrence are still to be passed over, `cur` is the piece being
collected (reversed). Occurrences are taken leftmost first and do not
overlap, as `strings.Index` finds them. -/
def splitGo (sep : Str) : Nat → Str → Str → List Str
  | _, [], cur => [cur.reverse]
  | k + 1, _ :: cs, cur => splitGo sep k cs cur
  | 0, c :: cs, cur =>
      if sep.isPrefixOf (c :: cs) then
        cur.reverse :: splitGo sep (sep.length - 1) cs []
      else
        splitGo sep 0 cs (c :: cur)

/-- `strings.Split(s, sep)`: the pieces of `s` between the occurrences of
`sep`; with an empty `sep` the string is exploded into its characters. -/
def Split (s sep : Str) : List Str :=
  match sep with
  | [] => s.map fun c => [c]
  | _ :: _ => splitGo sep 0 s []

/-- `strings.TrimLeft(s, cutset)`: drops every leading character that occurs
in `cutset`. -/
def TrimLeft (s cutset : Str) : Str :=
  s.dropWhile fun c => cutset.contains c

/-- `strings.TrimRight(s, cutset)`: drops every trailing character that occurs
in `cutset`. -/
def TrimRight (s cutset : Str) : Str :=
  (s.reverse.dropWhile fun c => cutset.contains c).reverse

/-- Value of a run of decimal digits, most significant first. -/
def digitsValue (ds : Str) : Nat :=
  ds.foldl (fun n ch => n * 10 + (ch.toNat - 48)) 0

/-- `strconv.Atoi(s)`: an optional sign followed by one or more decimal
digits, whose value fits a 64-bit `int`. -/
def Atoi (s : Str) : Except GoError Int :=
  let neg := s.head? == some '-'
  let body := if s.head? == some '-' || s.head? == some '+' then s.tail else s
  if body.isEmpty then .error (.atoiSyntax s)
  else if !body.all Char.isDigit then .error (.atoiSyntax s)
  else
    let un := digitsValue body
    if neg then
      if un > 9223372036854775808 then .error (.atoiRange s) else .ok (-(un : Int))
    else
      if un ≥ 9223372036854775808 then .error (.atoiRange s) else .ok (un : Int)

/-- The verb `%d` of `fmt.Sprintf` on an `int`: decimal digits, with a
leading minus sign for a negative value. -/
def fmtInt : Int → Str
  | .ofNat n => Nat.toDigits 10 n
  | .negSucc n => '-' :: Nat.toDigits 10 (n + 1)

/-! ## The package -/

/-- The Go struct `Data`: one bin. -/
structure Data where
  Min : Int
  Max : Int
  Size : Int
  deriving DecidableEq, Repr

/-- Result of a call that returns `([]Data, error)` or panics. -/
inductive Outcome where
  /-- run-time panic: index out of range -/
  | panic
  /-- normal return of the bin slice and the error -/
  | ret (bins : List Data) (err : Option GoError)
  deriving DecidableEq, Repr

/-- The function `getOutputFile`; `join` is `filepath.Join`. -/
def getOutputFile (join : Str → Str → Str) (dir : Str) (jobid commId rank : Int)
    (b : Data) : Str :=
  let outputFile :=
    "bin.job".toList ++ fmtInt jobid ++ ".comm".toList ++ fmtInt commId ++
      ".rank".toList ++ fmtInt rank ++ "_".toList ++ fmtInt b.Min ++ "-".toList ++
      fmtInt b.Max ++ ".txt".toList
  let outputFile :=
    if b.Max = -1 then
      "bin.job".toList ++ fmtInt jobid ++ ".comm".toList ++ fmtInt commId ++
        ".rank".toList ++ fmtInt rank ++ "_".toList ++ fmtInt b.Min ++ "+.txt".toList
    else outputFile
  if dir ≠ [] then join dir outputFile else outputFile

/-- The loop of `Create`: `k` iterations remain, `i` is the loop counter,
`start` and `stop` are the variables `start` and `end`, `bins` the slice
built so far. -/
def CreateLoop (listBins : List Int) : Nat → Nat → Int → Int → List Data → List Data
  | 0, _, _, _, bins => bins
  | k + 1, i, start, stop, bins =>
      let b : Data := { Min := start, Max := stop, Size := 0 }
      let start' := stop
      let stop' := if i + 1 < listBins.length then listBins.getD (i + 1) 0 else -1
      CreateLoop listBins k (i + 1) start' stop' (bins ++ [b])

/-- The function `Create`; `none` is the panic of `listBins[0]` on an empty
slice. The loop runs for `i = 0, ..., len(listBins)`. -/
def Create (listBins : List Int) : Option (List Data) :=
  match listBins with
  | [] => none
  | t0 :: _ => some (CreateLoop listBins (listBins.length + 1) 0 0 t0 [])

/-- The loop of `FilesExist` over the bins; `pathExists` is `util.PathExists`
on the state of the file system. -/
def FilesExistLoop (pathExists : Str → Bool) (join : Str → Str → Str) (outputDir : Str)
    (jobid commId rank : Int) : List Data → Bool
  | [] => true
  | b :: rest =>
      if !pathExists (getOutputFile join outputDir jobid commId rank b) then false
      else FilesExistLoop pathExists join outputDir jobid commId rank rest

/-- The function `FilesExist`; `none` is the panic of `Create` on an empty
slice. -/
def FilesExist (pathExists : Str → Bool) (join : Str → Str → Str) (outputDir : Str)
    (jobid commId rank : Int) (listBins : List Int) : Option Bool :=
  match Create listBins with
  | none => none
  | some bins => some (FilesExistLoop pathExists join outputDir jobid commId rank bins)

/-- The loop of `GetFromInputDescr` over the pieces; `listBins` is the slice
built so far, `.error` is the exit of the process through `log.Fatalf`. -/
def GetFromInputDescrLoop : List Str → List Int → Except GoError (List Int)
  | [], listBins => .ok listBins
  | s :: rest, listBins =>
      match Atoi s with
      | .error err => .error err
      | .ok n => GetFromInputDescrLoop rest (listBins ++ [n])

/-- The function `GetFromInputDescr`; `.error` is the exit of the process
through `log.Fatalf`. -/
def GetFromInputDescr (binStr : Str) : Except GoError (List Int) :=
  GetFromInputDescrLoop (Split binStr ",".toList) []

/-- The test of line 127: does value `val` fall into bin `b`. -/
def binMatches (b : Data) (val : Int) : Bool :=
  (b.Max != -1 && b.Min ≤ val && val < b.Max) || (b.Max == -1 && val ≥ b.Min)

/-- The loop over the bins of lines 126-131: the first bin that matches `val`
has its `Size` increased by `inc`, then the loop is left. -/
def binLoop (val inc : Int) : List Data → List Data
  | [] => []
  | b :: rest =>
      if binMatches b val then { b with Size := wrap64 (b.Size + inc) } :: rest
      else b :: binLoop val inc rest

/-- The loop over the count tokens of lines 115-132. The bins are updated in
place, so the bins returned with an error carry the updates made so far. -/
def countLoop (numCalls : Int) (nRanks : Nat) (datatypeSize : Int) :
    List Str → List Data → List Data × Option GoError
  | [], bins => (bins, none)
  | oneCount :: rest, bins =>
      if oneCount = [] then countLoop numCalls nRanks datatypeSize rest bins
      else
        match Atoi oneCount with
        | .error err => (bins, some err)
        | .ok countVal =>
            let val := wrap64 (countVal * datatypeSize)
            countLoop numCalls nRanks datatypeSize rest
              (binLoop val (wrap64 (numCalls * (nRanks : Int))) bins)

/-- The loop over the records of lines 100-133; `decode` is
`notation.ConvertCompressedCallListToIntSlice`. A record without the
delimiter makes `tokens[1]` panic. -/
def recordLoop (decode : Str → Except GoError (List Int)) (numCalls datatypeSize : Int) :
    List Str → List Data → Outcome
  | [], bins => .ret bins none
  | c :: rest, bins =>
      match Split c ": ".toList with
      | ranks :: cnts :: _ =>
          let counts := TrimRight cnts "\n".toList
          let ranks := TrimLeft ranks "Rank(s) ".toList
          match decode ranks with
          | .error err => .ret bins (some err)
          | .ok listRanks =>
              let nRanks := listRanks.length
              if nRanks = 0 then .ret bins (some (.invalidNumRanks nRanks))
              else
                match countLoop numCalls nRanks datatypeSize (Split counts " ".toList) bins with
                | (bins', some err) => .ret bins' (some err)
                | (bins', none) => recordLoop decode numCalls datatypeSize rest bins'
      | _ => .panic

/-- The function `GetFromCounts`. -/
def GetFromCounts (decode : Str → Except GoError (List Int)) (counts : List Str)
    (bins : List Data) (numCalls datatypeSize : Int) : Outcome :=
  if numCalls = 0 then .ret bins (some (.invalidNumCalls numCalls))
  else if datatypeSize = 0 then .ret bins (some (.invalidDatatypeSize datatypeSize))
  else recordLoop decode numCalls datatypeSize counts bins

/-! ## The stream driver -/

/-- What the counts reader yields for one iteration of the loop of
`GetFromReader`. The end of the list of steps is the clean end of the
stream, `io.EOF` from `counts.GetCompactHeader`. -/
inductive ReadStep where
  /-- both reads succeed: `len(countsHeader.CallIDs)`, the datatype size of
  the header, and the counters -/
  | batch (callIDs : Nat) (datatypeSize : Int) (counters : List Str)
  /-- `counts.GetCompactHeader` fails with an error other than `io.EOF` -/
  | headerErr (err : GoError)
  /-- `counts.GetCompactCounters` fails -/
  | countersErr (err : GoError)

/-- A Go slice value: the address of its backing array and its length. -/
structure Slice where
  addr : Nat
  len : Nat
  deriving DecidableEq, Repr

/-- The heap: the backing arrays of `[]Data` slices, by address. -/
abbrev Heap := List (List Data)

/-- The elements a slice shows. -/
def Slice.elems (s : Slice) (heap : Heap) : List Data :=
  (heap.getD s.addr []).take s.len

/-- A call `GetFromCounts(counters, s, numCalls, datatypeSize)` on the heap.
The callee receives a copy of the slice value `s`; its assignments
`bins[i].Size += ...` (line 128) write into the backing array of `s`, and the
slice it returns is the one it was passed. `none` is a panic. -/
def callGetFromCounts (decode : Str → Except GoError (List Int)) (counters : List Str)
    (s : Slice) (numCalls datatypeSize : Int) (heap : Heap) :
    Option (Heap × Slice × Option GoError) :=
  match GetFromCounts decode counters (s.elems heap) numCalls datatypeSize with
  | .panic => none
  | .ret elems err =>
      some (heap.set s.addr (elems ++ (heap.getD s.addr []).drop s.len), s, err)

/-- The loop of `GetFromReader` (lines 166-184). `outer` is the variable
`bins` of line 163. Line 180 declares a second variable `bins` (`inner`)
whose scope is the loop body, so `outer` is never assigned in the loop; the
call of line 180 is made on `outer`. -/
def GetFromReaderLoop (decode : Str → Except GoError (List Int)) :
    List ReadStep → Slice → Heap → Outcome
  | [], outer, heap => .ret (outer.elems heap) none
  | .headerErr readerr :: _, outer, heap => .ret (outer.elems heap) (some readerr)
  | .countersErr err :: _, outer, heap => .ret (outer.elems heap) (some err)
  | .batch callIDs datatypeSize counters :: rest, outer, heap =>
      match callGetFromCounts decode counters outer callIDs datatypeSize heap with
      | none => .panic
      | some (heap', inner, some err) => .ret (inner.elems heap') (some err)
      | some (heap', _, none) => GetFromReaderLoop decode rest outer heap'

/-- The function `GetFromReader`; `reader` lists what the counts reader
yields. The slice made by `Create` is the only array of the heap. -/
def GetFromReader (decode : Str → Except GoError (List Int)) (reader : List ReadStep)
    (listBins : List Int) : Outcome :=
  match Create listBins with
  | none => .panic
  | some bins => GetFromReaderLoop decode reader { addr := 0, len := bins.length } [bins]

/-! ## Definitions used to state the properties -/

/-- The bins with lower bound `start` and the upper bounds `stops`, each the
lower bound of the next. -/
def mkBins (start : Int) : List Int → List Data
  | [] => []
  | stop :: rest => { Min := start, Max := stop, Size := 0 } :: mkBins stop rest

/-- The rank-set descriptor handed to the decoder and the non-empty count
tokens of record `c`, as lines 101-104 and 115-118 take them from the text;
`none` when `c` does not hold the delimiter. -/
def recordParts (c : Str) : Option (Str × List Str) :=
  match Split c ": ".toList with
  | ranks :: cnts :: _ =>
      some (TrimLeft ranks "Rank(s) ".toList,
        (Split (TrimRight cnts "\n".toList) " ".toList).filter fun t => t ≠ [])
  | _ => none

/-- Modelled from the spec: one item of the compressed rank-list notation
read by `notation.ConvertCompressedCallListToIntSlice`, whose source is not
at hand. An item is a single rank `a` or a range `a-b`, which stands for the
ranks `a, a+1, ..., b`. -/
def decodeItem (item : Str) : Except GoError (List Int) :=
  match Split item "-".toList with
  | [a] =>
      match Atoi a with
      | .ok x => .ok [x]
      | .error err => .error err
  | [a, b] =>
      match Atoi a, Atoi b with
      | .ok x, .ok y => .ok ((List.range (y + 1 - x).toNat).map fun k => x + (k : Int))
      | .error err, _ => .error err
      | _, .error err => .error err
  | _ => .error (.decodeErr item)

/-- Modelled from the spec: the items of a rank-set descriptor, expanded in
order into one list of ranks. -/
def decodeItems : List Str → Except GoError (List Int)
  | [] => .ok []
  | item :: rest =>
      match decodeItem item, decodeItems rest with
      | .ok xs, .ok ys => .ok (xs ++ ys)
      | .error err, _ => .error err
      | _, .error err => .error err

/-- Modelled from the spec: the decoder
`notation.ConvertCompressedCallListToIntSlice` of the rank-set descriptors,
which "expands a rank-set string into an explicit list of integer ranks";
the items are separated by commas. It serves to evaluate the definitions on
the records of the examples; the properties hold for every decoder. -/
def decodeRanks (s : Str) : Except GoError (List Int) :=
  decodeItems (Split s ",".toList)

/-- The value of a count token that `strconv.Atoi` accepts. -/
def tokenValue (t : Str) : Option Int :=
  match Atoi t with
  | .ok v => some v
  | .error _ => none

/-- Number of ranks the decoder yields for the descriptor of record `c`
(0 when the record has no delimiter or the decoding fails). -/
def recordRanks (decode : Str → Except GoError (List Int)) (c : Str) : Nat :=
  match recordParts c with
  | some (descr, _) =>
      match decode descr with
      | .ok listRanks => listRanks.length
      | .error _ => 0
  | none => 0

/-- The values of the count tokens of record `c`, in order. -/
def recordValues (c : Str) : List Int :=
  match recordParts c with
  | some (_, toks) => toks.filterMap tokenValue
  | none => []

/-- Record `c` decodes: it holds the delimiter, its descriptor decodes to at
least one rank, and each of its count tokens parses to a non-negative
integer. -/
def recordDecodes (decode : Str → Except GoError (List Int)) (c : Str) : Bool :=
  match recordParts c with
  | some (descr, toks) =>
      (match decode descr with
        | .ok listRanks => decide (1 ≤ listRanks.length)
        | .error _ => false) &&
      toks.all fun t =>
        match Atoi t with
        | .ok v => decide (0 ≤ v)
        | .error _ => false
  | none => false

/-- The total of the specification for a bin with bounds `Min` and `Max`:
the sum over the records of the number of ranks times the number of count
values `v` whose scaled value `scale v` has `Min ≤ scale v` and
(`scale v < Max` or the bin is the last one). -/
def specTotal (scale : Int → Int) (decode : Str → Except GoError (List Int))
    (records : List Str) (Min Max : Int) (isLast : Bool) : Int :=
  (records.map fun c =>
    (recordRanks decode c : Int) *
      (((recordValues c).map scale).countP fun val =>
        decide (Min ≤ val ∧ (val < Max ∨ isLast = true)) : Nat)).sum

/-- One classified value: the scaled value and the increment. -/
abbrev Event := Int × Int

/-- What one classified value does to a bin taken alone. -/
def bump (e : Event) (b : Data) : Data :=
  if binMatches b e.1 then { b with Size := wrap64 (b.Size + e.2) } else b

/-- The classified values of a record, in order. -/
def recordEvents (decode : Str → Except GoError (List Int)) (numCalls datatypeSize : Int)
    (c : Str) : List Event :=
  (recordValues c).map fun v =>
    (wrap64 (v * datatypeSize), wrap64 (numCalls * (recordRanks decode c : Int)))

/-- The bins after the classified values `events`, each through the loop
over the bins. -/
def applyEvents (events : List Event) (bins : List Data) : List Data :=
  events.foldl (fun bs e => binLoop e.1 e.2 bs) bins

/-- Record `c` fails in the code: the text that line 104 leaves of its first
piece (every leading character of `"Rank(s) "` removed) does not decode or
decodes to no rank, or one of its non-empty count tokens is not accepted by
`strconv.Atoi`. -/
def recordFails (decode : Str → Except GoError (List Int)) (c : Str) : Bool :=
  match recordParts c with
  | some (descr, toks) =>
      (match decode descr with
        | .ok listRanks => decide (listRanks.length = 0)
        | .error _ => true) ||
      toks.any fun t => (tokenValue t).isNone
  | none => false

/-- One batch of the count file: `len(countsHeader.CallIDs)`, the datatype
size, and the counters. -/
abbrev Batch := Nat × Int × List Str

/-- What the reader yields on a stream made of the batches `batches` followed
by the clean end of the stream. -/
def readerOf (batches : List Batch) : List ReadStep :=
  batches.map fun b => ReadStep.batch b.1 b.2.1 b.2.2

/-- The left fold of `GetFromCounts` over the batches, in order, from the
bins `start`; `none` as soon as a call does not return with a `nil` error. -/
def foldBatches (decode : Str → Except GoError (List Int)) :
    List Batch → Option (List Data) → Option (List Data)
  | [], acc => acc
  | b :: rest, acc =>
      match acc with
      | none => none
      | some bins =>
          match GetFromCounts decode b.2.2 bins (b.1 : Int) b.2.1 with
          | .ret bins' none => foldBatches decode rest (some bins')
          | _ => none

/-- The pieces `ss` written one after the other with `sep` between them. -/
def joinWith (sep : Str) : List Str → Str
  | [] => []
  | [s] => s
  | s :: t :: rest => s ++ sep ++ joinWith sep (t :: rest)

/-- One path element `e` in the scan of `filepath.Clean`; `stack` holds the
elements kept so far, the last one first. An empty element and `.` are
dropped; `..` removes the last element kept, unless there is none or it is
itself a `..` that could not be resolved: then `..` is kept when the path is
not rooted and dropped when it is. -/
def cleanStep (rooted : Bool) (stack : List Str) (e : Str) : List Str :=
  if e = [] then stack
  else if e = ".".toList then stack
  else if e = "..".toList then
    match stack with
    | [] => if rooted then [] else [e]
    | top :: rest =>
        if top = "..".toList then (if rooted then stack else e :: stack) else rest
  else e :: stack

/-- `filepath.Clean(path)` where the separator is `/`: the shortest path
equivalent to `path` by purely lexical processing; the empty path and a path
that cleans to nothing give `"."`. -/
def Clean (path : Str) : Str :=
  if path = [] then ".".toList
  else
    let rooted := path.head? == some '/'
    let stack := (Split path "/".toList).foldl (cleanStep rooted) []
    let out := (if rooted then "/".toList else []) ++ joinWith "/".toList stack.reverse
    if out = [] then ".".toList else out

/-- `filepath.Join(dir, file)` where the separator is `/`: the elements from
the first non-empty one on are joined with `/` and the result is cleaned;
two empty elements give the empty string. -/
def filepathJoin (dir file : Str) : Str :=
  if dir ≠ [] then Clean (dir ++ "/".toList ++ file)
  else if file ≠ [] then Clean file
  else []

/-- A file name without directory part: it holds no separator and is none of
`""`, `"."` and `".."`. -/
def isBaseName (s : Str) : Prop :=
  '/' ∉ s ∧ s ≠ [] ∧ s ≠ ".".toList ∧ s ≠ "..".toList

/-- The bounds of a bin. -/
def Data.bounds (b : Data) : Int × Int :=
  (b.Min, b.Max)

/-- A decoder that fails with the very text it is handed; the error that
`GetFromCounts` returns with it shows which descriptor reaches the decoder. -/
def echoDecode (s : Str) : Except GoError (List Int) :=
  .error (.decodeErr s)

/-- The weight of record `c`: its number of ranks times its number of
non-empty count tokens (0 when the record has no delimiter or its descriptor
does not decode). No bin gains more than `numCalls` times this from `c`. -/
def recordWeight (decode : Str → Except GoError (List Int)) (c : Str) : Nat :=
  match recordParts c with
  | some (descr, toks) =>
      match decode descr with
      | .ok listRanks => listRanks.length * toks.length
      | .error _ => 0
  | none => 0

/-- The weight of a list of records. -/
def totalWeight (decode : Str → Except GoError (List Int)) (counts : List Str) : Nat :=
  (counts.map (recordWeight decode)).sum

/-- The text `s` cut at its first occurrence of the delimiter `": "`: what
stands before it and what stands after it; `none` when `s` holds none. -/
def cutDelim : Str → Option (Str × Str)
  | [] => none
  | c :: cs =>
      if c = ':' ∧ cs.head? = some ' ' then some ([], cs.tail)
      else (cutDelim cs).map fun p => (c :: p.1, p.2)

/-- The text `s` up to its first delimiter `": "`, all of `s` when it holds
none: the first piece that `strings.Split` makes of `s`. -/
def firstPiece (s : Str) : Str :=
  match cutDelim s with
  | none => s
  | some (a, _) => a

/-- The non-empty count tokens of the counts text `p`, as lines 103 and
115-118 take them. -/
def tokensOf (p : Str) : List Str :=
  (Split (TrimRight p "\n".toList) " ".toList).filter fun t => t ≠ []

/-- The edits of a record that add spaces or newlines: `SpacingEdit r r'`
when `r'` is `r` with
* `n` more spaces right after a delimiter `": "` (leading spaces of the
  counts text),
* `n` more spaces after a space that follows the delimiter (a wider gap
  between count tokens),
* `n` spaces added after the last character `x` of the counts text, which is
  followed by newlines only up to the end of the record or the next
  delimiter, `x` being neither `':'` nor a newline, or
* `m` newlines appended to the record. -/
inductive SpacingEdit : Str → Str → Prop where
  | leading (H B : Str) (n : Nat) :
      SpacingEdit (H ++ ": ".toList ++ B) (H ++ ": ".toList ++ (List.replicate n ' ' ++ B))
  | gap (H Z B : Str) (n : Nat) :
      SpacingEdit (H ++ ": ".toList ++ (Z ++ ' ' :: B))
        (H ++ ": ".toList ++ (Z ++ ' ' :: (List.replicate n ' ' ++ B)))
  | trailing (H Z : Str) (x : Char) (NL tail : Str) (n : Nat)
      (hcolon : x ≠ ':') (hnl : x ≠ '\n') (hNL : ∀ c ∈ NL, c = '\n')
      (htail : tail = [] ∨ ∃ R, tail = ':' :: ' ' :: R) :
      SpacingEdit (H ++ ": ".toList ++ (Z ++ x :: (NL ++ tail)))
        (H ++ ": ".toList ++ (Z ++ x :: (List.replicate n ' ' ++ (NL ++ tail))))
  | newlines (c : Str) (m : Nat) :
      SpacingEdit c (c ++ List.replicate m '\n')

end Bins

/-! # Properties -/

namespace Bins

/-! ## Arithmetic of `wrap64` -/

theorem wrap64_of_inInt64 {x : Int} (h : inInt64 x) : wrap64 x = x := by
  unfold inInt64 at h
  unfold wrap64
  omega

theorem wrap64_inInt64 (x : Int) : inInt64 (wrap64 x) := by
  unfold inInt64 wrap64
  omega

/-! ## `Create` -/

theorem mkBins_length (start : Int) (stops : List Int) :
    (mkBins start stops).length = stops.length := by
  induction stops generalizing start with
  | nil => rfl
  | cons stop rest ih => simp [mkBins, ih]

theorem mkBins_map_Max (start : Int) (stops : List Int) :
    (mkBins start stops).map Data.Max = stops := by
  induction stops generalizing start with
  | nil => rfl
  | cons stop rest ih => simp [mkBins, ih]

theorem mkBins_map_Min (start : Int) (stops : List Int) (last : Int) :
    (mkBins start (stops ++ [last])).map Data.Min = start :: stops := by
  induction stops generalizing start with
  | nil => rfl
  | cons stop rest ih => simp [mkBins, ih]

theorem mkBins_Size (start : Int) (stops : List Int) :
    ∀ b ∈ mkBins start stops, b.Size = 0 := by
  induction stops generalizing start with
  | nil => simp [mkBins]
  | cons stop rest ih =>
      intro b hb
      simp only [mkBins, List.mem_cons] at hb
      rcases hb with rfl | hb
      · rfl
      · exact ih stop b hb

theorem CreateLoop_eq (T : List Int) :
    ∀ (k i : Nat) (start stop : Int) (bins : List Data) (rest : List Int),
      (T ++ [-1]).drop i = stop :: rest → k = rest.length + 1 →
      CreateLoop T k i start stop bins = bins ++ mkBins start (stop :: rest) := by
  intro k
  induction k with
  | zero => intro i start stop bins rest _ hk; omega
  | succ k ih =>
      intro i start stop bins rest hdrop hk
      cases rest with
      | nil =>
          have hk0 : k = 0 := by simpa using hk
          subst hk0
          simp [CreateLoop, mkBins]
      | cons r rest' =>
          have hdrop' : (T ++ [-1]).drop (i + 1) = r :: rest' := by
            have := congrArg List.tail hdrop
            simpa [List.tail_drop] using this
          have hlen : i + 1 < T.length + 1 := by
            by_contra hcon
            have : (T ++ [-1]).drop (i + 1) = [] := by
              apply List.drop_eq_nil_of_le
              simp; omega
            rw [this] at hdrop'
            cases hdrop'
          have hget : (T ++ [-1])[i + 1]? = some r := by
            have := congrArg List.head? hdrop'
            simpa [List.head?_drop] using this
          have hstop : (if i + 1 < T.length then T.getD (i + 1) 0 else -1) = r := by
            by_cases hlt : i + 1 < T.length
            · rw [if_pos hlt]
              rw [List.getElem?_append_left hlt] at hget
              simp [List.getD, hget]
            · rw [if_neg hlt]
              have heq : i + 1 = T.length := by omega
              rw [heq] at hget
              simpa using hget
          simp only [CreateLoop]
          rw [hstop, ih (i + 1) stop r _ rest' hdrop' (by simpa using hk)]
          simp [mkBins]

theorem Create_eq_mkBins (T : List Int) (hT : T ≠ []) :
    Create T = some (mkBins 0 (T ++ [-1])) := by
  cases T with
  | nil => exact absurd rfl hT
  | cons t0 ts =>
      simp only [Create]
      rw [CreateLoop_eq (t0 :: ts) _ 0 0 t0 [] (ts ++ [-1]) (by simp) (by simp)]
      simp

/-- C1: for a non-empty threshold list `T` of length `n`, `Create` returns
`n + 1` bins, all of size 0, whose lower bounds are `0, t0, ..., t(n-1)` and
whose upper bounds are `t0, ..., t(n-1), -1`; the upper bound of every bin
but the last is the lower bound of the next bin. -/
theorem Create_bins (T : List Int) (hT : T ≠ []) :
    ∃ bins, Create T = some bins ∧
      bins.length = T.length + 1 ∧
      (∀ b ∈ bins, b.Size = 0) ∧
      bins.map Data.Min = 0 :: T ∧
      bins.map Data.Max = T ++ [-1] ∧
      (∀ i, i < T.length →
        (bins.map Data.Max)[i]? = (bins.map Data.Min)[i + 1]?) := by
  refine ⟨_, Create_eq_mkBins T hT, ?_, mkBins_Size _ _, mkBins_map_Min _ _ _,
    mkBins_map_Max _ _, ?_⟩
  · simp [mkBins_length]
  · intro i hi
    rw [mkBins_map_Min, mkBins_map_Max]
    simp [List.getElem?_append_left hi]

theorem Create_bins_witness :
    ∃ bins, Create [100, 1000] = some bins ∧
      bins.length = [(100 : Int), 1000].length + 1 ∧
      (∀ b ∈ bins, b.Size = 0) ∧
      bins.map Data.Min = 0 :: [100, 1000] ∧
      bins.map Data.Max = [100, 1000] ++ [-1] ∧
      (∀ i, i < [(100 : Int), 1000].length →
        (bins.map Data.Max)[i]? = (bins.map Data.Min)[i + 1]?) :=
  Create_bins [100, 1000] (by decide)

/-! ## The partition formed by the bins -/

theorem mkBins_cons_append (start t : Int) (ts l : List Int) :
    mkBins start ((t :: ts) ++ l) = { Min := start, Max := t, Size := 0 } :: mkBins t (ts ++ l) :=
  rfl

theorem mkBins_Min_ge (T : List Int) :
    ∀ start : Int, (∀ t ∈ T, start < t) → T.Pairwise (· < ·) →
      ∀ b ∈ mkBins start (T ++ [-1]), start ≤ b.Min := by
  induction T with
  | nil =>
      intro start _ _ b hb
      simp [mkBins] at hb
      subst hb
      exact le_refl _
  | cons t ts ih =>
      intro start hstart hpw b hb
      rw [mkBins_cons_append, List.mem_cons] at hb
      rcases hb with rfl | hb
      · exact le_refl _
      · have hlt : start < t := hstart t (List.mem_cons_self _ _)
        have hts : ∀ x ∈ ts, t < x := (List.pairwise_cons.mp hpw).1
        have := ih t hts (List.pairwise_cons.mp hpw).2 b hb
        omega

theorem binMatches_false_of_lt_Min (b : Data) (val : Int) (h : val < b.Min) :
    binMatches b val = false := by
  simp only [binMatches, Bool.or_eq_false_iff, Bool.and_eq_false_iff, decide_eq_false_iff_not]
  constructor
  · left; right; omega
  · right; omega

theorem countP_mkBins (T : List Int) :
    ∀ (start val : Int), start ≤ val → (∀ t ∈ T, start < t) → T.Pairwise (· < ·) →
      (-1 : Int) ∉ T →
      List.countP (fun b => binMatches b val) (mkBins start (T ++ [-1])) = 1 := by
  induction T with
  | nil =>
      intro start val hle _ _ _
      simp [mkBins, binMatches, List.countP_cons, hle]
  | cons t ts ih =>
      intro start val hle hstart hpw hs
      have ht : t ≠ -1 := fun h => hs (h ▸ List.mem_cons_self _ _)
      have hs' : (-1 : Int) ∉ ts := fun h => hs (List.mem_cons_of_mem _ h)
      have hts : ∀ x ∈ ts, t < x := (List.pairwise_cons.mp hpw).1
      have hpw' := (List.pairwise_cons.mp hpw).2
      rw [mkBins_cons_append, List.countP_cons]
      by_cases hv : val < t
      · have hrest : List.countP (fun b => binMatches b val) (mkBins t (ts ++ [-1])) = 0 := by
          rw [List.countP_eq_zero]
          intro b hb
          have := mkBins_Min_ge ts t hts hpw' b hb
          rw [binMatches_false_of_lt_Min b val (by omega)]
          simp
        rw [hrest]
        simp [binMatches, ht, hle, hv]
      · rw [ih t val (by omega) hts hpw' hs']
        simp [binMatches, ht, hv]

/-- C2, failing instance: the thresholds `[-1, 5]` are strictly increasing,
yet the value 1 matches both bin 0 (`Min` 0, `Max` -1, read as unbounded) and
bin 1 (`Min` -1, `Max` 5). -/
theorem Create_partition_fails_on_sentinel_threshold :
    List.Pairwise (· < ·) [(-1 : Int), 5] ∧ (0 : Int) ≤ 1 ∧
      Create [-1, 5] = some [⟨0, -1, 0⟩, ⟨-1, 5, 0⟩, ⟨5, -1, 0⟩] ∧
      binMatches ⟨0, -1, 0⟩ 1 = true ∧ binMatches ⟨-1, 5, 0⟩ 1 = true ∧
      ¬ List.countP (fun b => binMatches b 1) [⟨0, -1, 0⟩, ⟨-1, 5, 0⟩, ⟨5, -1, 0⟩] = 1 := by
  decide

/-- C2, amended: for a non-empty strictly increasing threshold list in which
the sentinel -1 does not occur and every value `val ≥ 0`, exactly one bin of
`Create` matches `val` under the test of `GetFromCounts`. -/
theorem Create_partition (T : List Int) (hT : T ≠ []) (hinc : T.Pairwise (· < ·))
    (hs : (-1 : Int) ∉ T) (val : Int) (hv : 0 ≤ val) :
    ∃ bins, Create T = some bins ∧
      List.countP (fun b => binMatches b val) bins = 1 := by
  refine ⟨_, Create_eq_mkBins T hT, ?_⟩
  cases T with
  | nil => exact absurd rfl hT
  | cons t0 ts =>
      have hts : ∀ x ∈ ts, t0 < x := (List.pairwise_cons.mp hinc).1
      by_cases h0 : 0 < t0
      · apply countP_mkBins (t0 :: ts) 0 val hv _ hinc hs
        intro t ht
        rcases List.mem_cons.mp ht with rfl | ht
        · exact h0
        · have := hts t ht
          omega
      · have ht : t0 ≠ -1 := fun h => hs (h ▸ List.mem_cons_self _ _)
        have hs' : (-1 : Int) ∉ ts := fun h => hs (List.mem_cons_of_mem _ h)
        rw [mkBins_cons_append, List.countP_cons]
        rw [countP_mkBins ts t0 val (by omega) hts (List.pairwise_cons.mp hinc).2 hs']
        have hnv : ¬ val < t0 := by omega
        simp [binMatches, ht, hnv]

theorem Create_partition_witness :
    ∃ bins, Create [100, 1000] = some bins ∧
      List.countP (fun b => binMatches b 150) bins = 1 :=
  Create_partition [100, 1000] (by decide) (by decide) (by decide) 150 (by decide)

/-! ## One classification step -/

theorem binLoop_first_match (val inc : Int) :
    ∀ bins : List Data, (∃ b ∈ bins, binMatches b val = true) →
      ∃ (i : Nat) (b : Data), bins[i]? = some b ∧ binMatches b val = true ∧
        (∀ (j : Nat) (b0 : Data), j < i → bins[j]? = some b0 → binMatches b0 val = false) ∧
        binLoop val inc bins = bins.set i { b with Size := wrap64 (b.Size + inc) } := by
  intro bins
  induction bins with
  | nil => rintro ⟨b, hb, _⟩; cases hb
  | cons b0 rest ih =>
      intro hex
      by_cases hm : binMatches b0 val = true
      · refine ⟨0, b0, by simp, hm, ?_, ?_⟩
        · intro j _ hj; omega
        · simp [binLoop, hm]
      · have hex' : ∃ b ∈ rest, binMatches b val = true := by
          obtain ⟨b, hb, hbm⟩ := hex
          rcases List.mem_cons.mp hb with rfl | hb
          · exact absurd hbm hm
          · exact ⟨b, hb, hbm⟩
        obtain ⟨i, b, hi, hbm, hfirst, heq⟩ := ih hex'
        refine ⟨i + 1, b, by simpa using hi, hbm, ?_, ?_⟩
        · intro j b1 hj hj1
          cases j with
          | zero =>
              simp at hj1
              subst hj1
              simpa using hm
          | succ j => exact hfirst j b1 (by omega) (by simpa using hj1)
        · simp [binLoop, hm, heq]

theorem countLoop_filter (numCalls : Int) (nRanks : Nat) (datatypeSize : Int) :
    ∀ (toks : List Str) (bins : List Data),
      countLoop numCalls nRanks datatypeSize toks bins =
        countLoop numCalls nRanks datatypeSize (toks.filter fun t => t ≠ []) bins := by
  intro toks
  induction toks with
  | nil => intro bins; rfl
  | cons t rest ih =>
      intro bins
      by_cases ht : t = []
      · subst ht
        simp [countLoop, ih]
      · rw [List.filter_cons_of_pos (by simpa using ht)]
        simp only [countLoop, if_neg ht]
        cases Atoi t with
        | error err => rfl
        | ok countVal => exact ih _

theorem recordLoop_cons (decode : Str → Except GoError (List Int))
    (numCalls datatypeSize : Int) (c : Str) (rest : List Str) (bins : List Data) :
    recordLoop decode numCalls datatypeSize (c :: rest) bins =
      match Split c ": ".toList with
      | ranks :: cnts :: _ =>
          match decode (TrimLeft ranks "Rank(s) ".toList) with
          | .error err => .ret bins (some err)
          | .ok listRanks =>
              if listRanks.length = 0 then
                .ret bins (some (.invalidNumRanks listRanks.length))
              else
                match countLoop numCalls listRanks.length datatypeSize
                    (Split (TrimRight cnts "\n".toList) " ".toList) bins with
                | (bins', some err) => .ret bins' (some err)
                | (bins', none) => recordLoop decode numCalls datatypeSize rest bins'
      | _ => .panic := by
  rw [recordLoop]

theorem recordParts_some {c descr : Str} {toks : List Str}
    (h : recordParts c = some (descr, toks)) :
    ∃ ranks cnts more, Split c ": ".toList = ranks :: cnts :: more ∧
      TrimLeft ranks "Rank(s) ".toList = descr ∧
      (Split (TrimRight cnts "\n".toList) " ".toList).filter (fun t => t ≠ []) = toks := by
  unfold recordParts at h
  split at h
  · rename_i ranks cnts more heq
    simp only [Option.some.injEq, Prod.mk.injEq] at h
    exact ⟨ranks, cnts, more, heq, h.1, h.2⟩
  · cases h

theorem recordParts_none {c : Str} (h : recordParts c = none) :
    ∀ ranks cnts more, Split c ": ".toList ≠ ranks :: cnts :: more := by
  unfold recordParts at h
  split at h
  · cases h
  · rename_i hne
    intro ranks cnts more heq
    exact hne ranks cnts more heq

theorem recordLoop_of_parts (decode : Str → Except GoError (List Int))
    (numCalls datatypeSize : Int) (c : Str) (rest : List Str) (bins : List Data)
    (descr : Str) (toks : List Str) (h : recordParts c = some (descr, toks)) :
    recordLoop decode numCalls datatypeSize (c :: rest) bins =
      match decode descr with
      | .error err => .ret bins (some err)
      | .ok listRanks =>
          if listRanks.length = 0 then .ret bins (some (.invalidNumRanks listRanks.length))
          else
            match countLoop numCalls listRanks.length datatypeSize toks bins with
            | (bins', some err) => .ret bins' (some err)
            | (bins', none) => recordLoop decode numCalls datatypeSize rest bins' := by
  obtain ⟨ranks, cnts, more, heq, h1, h2⟩ := recordParts_some h
  rw [recordLoop_cons, heq]
  simp only
  rw [h1]
  cases decode descr with
  | error err => rfl
  | ok listRanks =>
      simp only
      rw [countLoop_filter, h2]

theorem recordLoop_no_delimiter (decode : Str → Except GoError (List Int))
    (numCalls datatypeSize : Int) (c : Str) (rest : List Str) (bins : List Data)
    (h : recordParts c = none) :
    recordLoop decode numCalls datatypeSize (c :: rest) bins = .panic := by
  have hne := recordParts_none h
  rw [recordLoop_cons]
  split
  · rename_i ranks cnts more heq
    exact absurd heq (hne ranks cnts more)
  · rfl

theorem applyEvents_append (es fs : List Event) (bins : List Data) :
    applyEvents (es ++ fs) bins = applyEvents fs (applyEvents es bins) := by
  simp [applyEvents, List.foldl_append]

theorem countLoop_ok (numCalls : Int) (nRanks : Nat) (datatypeSize : Int) :
    ∀ (toks : List Str) (bins : List Data),
      (∀ t ∈ toks, t ≠ [] ∧ ∃ v, Atoi t = .ok v) →
      countLoop numCalls nRanks datatypeSize toks bins =
        (applyEvents ((toks.filterMap tokenValue).map fun v =>
          (wrap64 (v * datatypeSize), wrap64 (numCalls * (nRanks : Int)))) bins, none) := by
  intro toks
  induction toks with
  | nil => intro bins _; rfl
  | cons t rest ih =>
      intro bins h
      obtain ⟨hne, v, hv⟩ := h t (List.mem_cons_self _ _)
      have hrest : ∀ t ∈ rest, t ≠ [] ∧ ∃ v, Atoi t = .ok v :=
        fun t ht => h t (List.mem_cons_of_mem _ ht)
      have htv : tokenValue t = some v := by simp [tokenValue, hv]
      simp only [countLoop, if_neg hne, hv]
      rw [ih _ hrest, List.filterMap_cons_some htv]
      rfl

theorem recordDecodes_parts {decode : Str → Except GoError (List Int)} {c : Str}
    (h : recordDecodes decode c = true) :
    ∃ descr toks ranks, recordParts c = some (descr, toks) ∧ decode descr = .ok ranks ∧
      1 ≤ ranks.length ∧ ∀ t ∈ toks, ∃ v, Atoi t = .ok v ∧ 0 ≤ v := by
  unfold recordDecodes at h
  split at h
  · rename_i descr toks hparts
    simp only [Bool.and_eq_true, List.all_eq_true] at h
    obtain ⟨h1, h2⟩ := h
    split at h1
    · rename_i ranks hdec
      refine ⟨descr, toks, ranks, hparts, hdec, by simpa using h1, ?_⟩
      intro t ht
      have := h2 t ht
      split at this
      · rename_i v hv
        exact ⟨v, hv, by simpa using this⟩
      · cases this
    · cases h1
  · cases h

theorem recordParts_tokens_ne {c descr : Str} {toks : List Str}
    (h : recordParts c = some (descr, toks)) : ∀ t ∈ toks, t ≠ [] := by
  obtain ⟨ranks, cnts, more, _, _, h2⟩ := recordParts_some h
  intro t ht
  rw [← h2] at ht
  simpa using (List.mem_filter.mp ht).2

theorem recordLoop_ok (decode : Str → Except GoError (List Int)) (numCalls datatypeSize : Int) :
    ∀ (records : List Str) (bins : List Data),
      (∀ c ∈ records, recordDecodes decode c = true) →
      recordLoop decode numCalls datatypeSize records bins =
        .ret (applyEvents (records.flatMap (recordEvents decode numCalls datatypeSize)) bins)
          none := by
  intro records
  induction records with
  | nil => intro bins _; rfl
  | cons c rest ih =>
      intro bins h
      obtain ⟨descr, toks, ranks, hparts, hdec, hr, htoks⟩ :=
        recordDecodes_parts (h c (List.mem_cons_self _ _))
      have hne := recordParts_tokens_ne hparts
      rw [recordLoop_of_parts decode numCalls datatypeSize c rest bins descr toks hparts, hdec]
      simp only
      rw [if_neg (by omega), countLoop_ok numCalls ranks.length datatypeSize toks bins
        (fun t ht => ⟨hne t ht, (htoks t ht).imp fun v hv => hv.1⟩)]
      simp only
      rw [ih _ (fun c hc => h c (List.mem_cons_of_mem _ hc)), List.flatMap_cons,
        applyEvents_append]
      have hev : recordEvents decode numCalls datatypeSize c =
          (toks.filterMap tokenValue).map fun v =>
            (wrap64 (v * datatypeSize), wrap64 (numCalls * (ranks.length : Int))) := by
        simp [recordEvents, recordValues, recordRanks, hparts, hdec]
      rw [hev]

/-! ## Bins of which at most one matches -/

theorem wrap64_add_wrap64_left (a b : Int) : wrap64 (wrap64 a + b) = wrap64 (a + b) := by
  unfold wrap64
  omega

theorem wrap64_add_wrap64_right (a b : Int) : wrap64 (a + wrap64 b) = wrap64 (a + b) := by
  unfold wrap64
  omega

theorem binMatches_bump (e : Event) (b : Data) (val : Int) :
    binMatches (bump e b) val = binMatches b val := by
  unfold bump
  split <;> rfl

theorem bump_Min (e : Event) (b : Data) : (bump e b).Min = b.Min := by
  unfold bump
  split <;> rfl

theorem bump_Max (e : Event) (b : Data) : (bump e b).Max = b.Max := by
  unfold bump
  split <;> rfl

theorem binLoop_eq_map (e : Event) :
    ∀ bins : List Data, List.countP (fun b => binMatches b e.1) bins ≤ 1 →
      binLoop e.1 e.2 bins = bins.map (bump e) := by
  intro bins
  induction bins with
  | nil => intro _; rfl
  | cons b rest ih =>
      intro h
      rw [List.countP_cons] at h
      by_cases hm : binMatches b e.1 = true
      · have h0 : List.countP (fun b => binMatches b e.1) rest = 0 := by
          simp only [hm, if_true] at h
          omega
        rw [List.countP_eq_zero] at h0
        have hrest : rest.map (bump e) = rest := by
          conv_rhs => rw [← List.map_id rest]
          apply List.map_congr_left
          intro x hx
          have := h0 x hx
          simp [bump, this]
        simp [binLoop, hm, bump, hrest]
      · have h1 : List.countP (fun b => binMatches b e.1) rest ≤ 1 := by omega
        simp [binLoop, hm, bump, ih h1]

theorem countP_map_bump (e : Event) (val : Int) (bins : List Data) :
    List.countP (fun b => binMatches b val) (bins.map (bump e)) =
      List.countP (fun b => binMatches b val) bins := by
  rw [List.countP_map]
  apply List.countP_congr
  intro b _
  simp [binMatches_bump]

theorem applyEvents_eq_map :
    ∀ (events : List Event) (bins : List Data),
      (∀ val, List.countP (fun b => binMatches b val) bins ≤ 1) →
      applyEvents events bins = bins.map fun b => events.foldl (fun b e => bump e b) b := by
  intro events
  induction events with
  | nil => intro bins _; simp [applyEvents]
  | cons e es ih =>
      intro bins h
      have hstep : applyEvents (e :: es) bins = applyEvents es (binLoop e.1 e.2 bins) := rfl
      rw [hstep, binLoop_eq_map e bins (h e.1), ih (bins.map (bump e))]
      · simp [List.map_map, Function.comp_def]
      · intro val
        rw [countP_map_bump]
        exact h val

theorem foldl_bump_Min (events : List Event) :
    ∀ b : Data, (events.foldl (fun b e => bump e b) b).Min = b.Min ∧
      (events.foldl (fun b e => bump e b) b).Max = b.Max := by
  induction events with
  | nil => intro b; exact ⟨rfl, rfl⟩
  | cons e es ih =>
      intro b
      simp only [List.foldl_cons]
      rw [(ih (bump e b)).1, (ih (bump e b)).2, bump_Min, bump_Max]
      exact ⟨rfl, rfl⟩

theorem foldl_bump_Size (events : List Event) :
    ∀ b : Data, inInt64 b.Size →
      (events.foldl (fun b e => bump e b) b).Size =
        wrap64 (b.Size + ((events.filter fun e => binMatches b e.1).map fun e => e.2).sum) := by
  induction events with
  | nil =>
      intro b hb
      simp [wrap64_of_inInt64 hb]
  | cons e es ih =>
      intro b hb
      simp only [List.foldl_cons]
      have hin : inInt64 (bump e b).Size := by
        unfold bump
        split
        · exact wrap64_inInt64 _
        · exact hb
      rw [ih (bump e b) hin]
      have hfilter : (es.filter fun e0 => binMatches (bump e b) e0.1) =
          es.filter fun e0 => binMatches b e0.1 := by
        apply List.filter_congr
        intro x _
        rw [binMatches_bump]
      rw [hfilter]
      by_cases hm : binMatches b e.1 = true
      · have hf : ((e :: es).filter fun e0 => binMatches b e0.1) =
            e :: es.filter fun e0 => binMatches b e0.1 := by
          simp [List.filter_cons, hm]
        rw [hf]
        simp only [bump, hm, if_true, List.map_cons, List.sum_cons]
        rw [wrap64_add_wrap64_left]
        congr 1
        ring
      · have hf : ((e :: es).filter fun e0 => binMatches b e0.1) =
            es.filter fun e0 => binMatches b e0.1 := by
          simp [List.filter_cons, hm]
        rw [hf]
        simp [bump, hm]

/-! ## The totals of `GetFromCounts` on the bins of `Create` -/

theorem wrap64_modEq (a : Int) : wrap64 a ≡ a [ZMOD 18446744073709551616] := by
  unfold wrap64 Int.ModEq
  omega

theorem wrap64_congr {a b : Int} (h : a ≡ b [ZMOD 18446744073709551616]) :
    wrap64 a = wrap64 b := by
  have h2 := h.add_right 9223372036854775808
  unfold Int.ModEq at h2
  unfold wrap64
  rw [h2]

theorem countP_mkBins_le_one (T : List Int) (hpos : ∀ t ∈ T, 0 < t)
    (hinc : T.Pairwise (· < ·)) (val : Int) :
    List.countP (fun b => binMatches b val) (mkBins 0 (T ++ [-1])) ≤ 1 := by
  by_cases hv : 0 ≤ val
  · have hs : (-1 : Int) ∉ T := fun h => by
      have := hpos _ h
      omega
    rw [countP_mkBins T 0 val hv hpos hinc hs]
  · have h0 : List.countP (fun b => binMatches b val) (mkBins 0 (T ++ [-1])) = 0 := by
      rw [List.countP_eq_zero]
      intro b hb
      have := mkBins_Min_ge T 0 hpos hinc b hb
      rw [binMatches_false_of_lt_Min b val (by omega)]
      simp
    omega

theorem binMatches_eq_spec (b : Data) (isLast : Bool)
    (h : if isLast = true then b.Max = -1 else b.Max ≠ -1) (val : Int) :
    binMatches b val = decide (b.Min ≤ val ∧ (val < b.Max ∨ isLast = true)) := by
  cases isLast with
  | true =>
      simp only [if_true] at h
      simp [binMatches, h]
  | false =>
      have h2 : b.Max ≠ -1 := by simpa using h
      have h3 : (b.Max != -1) = true := by simpa using h2
      have h4 : (b.Max == -1) = false := by simpa using h2
      simp [binMatches, h3, h4]

theorem sum_record_events (b : Data) (scale : Int → Int) (w : Int) :
    ∀ vals : List Int,
      (((vals.map fun v => ((scale v, w) : Event)).filter fun e => binMatches b e.1).map
        fun e => e.2).sum =
        ((List.countP (fun val => binMatches b val) (vals.map scale) : Nat) : Int) * w := by
  intro vals
  induction vals with
  | nil => simp
  | cons v rest ih =>
      by_cases hm : binMatches b (scale v) = true
      · simp only [List.map_cons, List.filter_cons, hm, if_true, List.sum_cons,
          List.countP_cons]
        rw [ih]
        push_cast
        ring
      · have hm2 : binMatches b (scale v) = false := by simpa using hm
        simp only [List.map_cons, List.filter_cons, hm2, List.countP_cons]
        simp only [Bool.false_eq_true, if_false, Nat.add_zero]
        rw [ih]

theorem sum_events_modEq (decode : Str → Except GoError (List Int)) (c d : Int) (b : Data)
    (isLast : Bool) (h : if isLast = true then b.Max = -1 else b.Max ≠ -1) :
    ∀ records : List Str,
      (((records.flatMap (recordEvents decode c d)).filter fun e => binMatches b e.1).map
        fun e => e.2).sum ≡
        c * specTotal (fun v => wrap64 (v * d)) decode records b.Min b.Max isLast
        [ZMOD 18446744073709551616] := by
  intro records
  induction records with
  | nil => simp [specTotal]
  | cons r rest ih =>
      rw [List.flatMap_cons, List.filter_append, List.map_append, List.sum_append]
      have hspec : specTotal (fun v => wrap64 (v * d)) decode (r :: rest) b.Min b.Max isLast =
          (recordRanks decode r : Int) *
            ((List.countP (fun val => binMatches b val)
              ((recordValues r).map fun v => wrap64 (v * d)) : Nat) : Int) +
          specTotal (fun v => wrap64 (v * d)) decode rest b.Min b.Max isLast := by
        simp only [specTotal, List.map_cons, List.sum_cons]
        congr 3
        apply List.countP_congr
        intro val _
        rw [binMatches_eq_spec b isLast h val]
      rw [hspec, mul_add]
      apply Int.ModEq.add _ ih
      unfold recordEvents
      rw [sum_record_events b (fun v => wrap64 (v * d)) _ (recordValues r)]
      have := (wrap64_modEq (c * (recordRanks decode r : Int))).mul_left
        ((List.countP (fun val => binMatches b val)
          ((recordValues r).map fun v => wrap64 (v * d)) : Nat) : Int)
      refine this.trans ?_
      have heq : ((List.countP (fun val => binMatches b val)
          ((recordValues r).map fun v => wrap64 (v * d)) : Nat) : Int) *
            (c * (recordRanks decode r : Int)) =
          c * ((recordRanks decode r : Int) *
            ((List.countP (fun val => binMatches b val)
              ((recordValues r).map fun v => wrap64 (v * d)) : Nat) : Int)) := by ring
      rw [heq]

theorem specTotal_congr (f g : Int → Int) (decode : Str → Except GoError (List Int))
    (records : List Str) (lo hi : Int) (isLast : Bool)
    (h : ∀ c ∈ records, ∀ v ∈ recordValues c, f v = g v) :
    specTotal f decode records lo hi isLast = specTotal g decode records lo hi isLast := by
  unfold specTotal
  congr 1
  apply List.map_congr_left
  intro c hc
  have : (recordValues c).map f = (recordValues c).map g :=
    List.map_congr_left (h c hc)
  rw [this]

theorem mkBins_Max_sentinel (T : List Int) (hpos : ∀ t ∈ T, 0 < t) (i : Nat) (b0 : Data)
    (hi : (mkBins 0 (T ++ [-1]))[i]? = some b0) :
    if decide (i = T.length) = true then b0.Max = -1 else b0.Max ≠ -1 := by
  have hmax : ((mkBins 0 (T ++ [-1])).map Data.Max)[i]? = some b0.Max := by
    rw [List.getElem?_map, hi]
    rfl
  rw [mkBins_map_Max] at hmax
  by_cases hlt : i < T.length
  · rw [List.getElem?_append_left hlt] at hmax
    have hmem : b0.Max ∈ T := List.getElem?_mem hmax
    have := hpos _ hmem
    have hne : i ≠ T.length := by omega
    simp only [hne, decide_False, Bool.false_eq_true, if_false]
    omega
  · have hlen : i < (mkBins 0 (T ++ [-1])).length := by
      by_contra hcon
      rw [List.getElem?_eq_none (by omega)] at hi
      cases hi
    rw [mkBins_length] at hlen
    simp only [List.length_append, List.length_singleton] at hlen
    have heq : i = T.length := by omega
    subst heq
    simp only [decide_True, if_true]
    simpa using hmax.symm

/-- C4, failing instance: thresholds `[100]`, the record
`"Rank(s) 0: 4611686018427387904"`, `numCalls = 1` and `datatypeSize = 4` meet
every condition of the claim. The product `2^62 * 4` wraps to 0 in the
arithmetic of `int`, so the value is counted in bin 0 and the sizes are
`[1, 0]`, where the formula of the claim, with the product `2^64`, gives
`[0, 1]`. -/
theorem GetFromCounts_Create_totals_wraps :
    List.Pairwise (· < ·) [(100 : Int)] ∧ (∀ t ∈ [(100 : Int)], 0 < t) ∧
    (0 : Int) < 1 ∧ (0 : Int) < 4 ∧
    recordDecodes decodeRanks "Rank(s) 0: 4611686018427387904".toList = true ∧
    recordValues "Rank(s) 0: 4611686018427387904".toList = [4611686018427387904] ∧
    Create [100] = some [⟨0, 100, 0⟩, ⟨100, -1, 0⟩] ∧
    GetFromCounts decodeRanks ["Rank(s) 0: 4611686018427387904".toList]
      [⟨0, 100, 0⟩, ⟨100, -1, 0⟩] 1 4 = .ret [⟨0, 100, 1⟩, ⟨100, -1, 0⟩] none ∧
    1 * specTotal (fun v => v * 4) decodeRanks ["Rank(s) 0: 4611686018427387904".toList]
      0 100 false = 0 ∧
    1 * specTotal (fun v => v * 4) decodeRanks ["Rank(s) 0: 4611686018427387904".toList]
      100 (-1) true = 1 := by
  refine ⟨by decide, by decide, by decide, by decide, by decide, by decide, by decide,
    by decide, by decide, by decide⟩

/-- C4, amended: for a non-empty strictly increasing list of positive
thresholds, records that all decode (delimiter present, `r_k ≥ 1` ranks, count
tokens that parse to non-negative integers), `numCalls = c > 0` and
`datatypeSize = d > 0`, `GetFromCounts` on the bins of `Create` returns no
error and bins with the bounds of `Create`, where the `Size` of bin `i` is
`c * Σ_k r_k * #{v in record k | Min_i ≤ v*d ∧ (v*d < Max_i ∨ i is last)}`
with the product `v*d` and the total taken in the arithmetic of `int` (64
bits, wrap-around); when no `v*d` and not the total leave the range of `int`,
the `Size` is the plain integer value of the formula. -/
theorem GetFromCounts_Create_totals (decode : Str → Except GoError (List Int))
    (T : List Int) (records : List Str) (c d : Int)
    (hT : T ≠ []) (hinc : T.Pairwise (· < ·)) (hpos : ∀ t ∈ T, 0 < t)
    (hc : 0 < c) (hd : 0 < d) (hrec : ∀ r ∈ records, recordDecodes decode r = true) :
    ∃ bins0 bins, Create T = some bins0 ∧
      GetFromCounts decode records bins0 c d = .ret bins none ∧
      bins.length = T.length + 1 ∧
      ∀ (i : Nat) (b0 b : Data), bins0[i]? = some b0 → bins[i]? = some b →
        b.Min = b0.Min ∧ b.Max = b0.Max ∧
        b.Size = wrap64 (c * specTotal (fun v => wrap64 (v * d)) decode records
          b0.Min b0.Max (decide (i = T.length))) ∧
        ((∀ r ∈ records, ∀ v ∈ recordValues r, inInt64 (v * d)) →
          inInt64 (c * specTotal (fun v => v * d) decode records
            b0.Min b0.Max (decide (i = T.length))) →
          b.Size = c * specTotal (fun v => v * d) decode records
            b0.Min b0.Max (decide (i = T.length))) := by
  have hexcl := countP_mkBins_le_one T hpos hinc
  refine ⟨mkBins 0 (T ++ [-1]),
    (mkBins 0 (T ++ [-1])).map fun b =>
      (records.flatMap (recordEvents decode c d)).foldl (fun b e => bump e b) b,
    Create_eq_mkBins T hT, ?_, ?_, ?_⟩
  · unfold GetFromCounts
    rw [if_neg (by omega), if_neg (by omega), recordLoop_ok decode c d records _ hrec,
      applyEvents_eq_map _ _ hexcl]
  · simp [mkBins_length]
  · intro i b0 b hi hb
    rw [List.getElem?_map, hi] at hb
    simp only [Option.map_some', Option.some.injEq] at hb
    subst hb
    have hsent := mkBins_Max_sentinel T hpos i b0 hi
    have hsize0 : b0.Size = 0 := mkBins_Size _ _ b0 (List.getElem?_mem hi)
    have hmm := foldl_bump_Min (records.flatMap (recordEvents decode c d)) b0
    have hsz : (List.foldl (fun b e => bump e b) b0
        (records.flatMap (recordEvents decode c d))).Size =
        wrap64 (c * specTotal (fun v => wrap64 (v * d)) decode records
          b0.Min b0.Max (decide (i = T.length))) := by
      rw [foldl_bump_Size _ b0 (by rw [hsize0]; decide), hsize0, zero_add]
      exact wrap64_congr (sum_events_modEq decode c d b0 _ hsent records)
    refine ⟨hmm.1, hmm.2, hsz, ?_⟩
    intro hin htot
    rw [hsz, specTotal_congr (fun v => wrap64 (v * d)) (fun v => v * d) decode records _ _ _
      (fun r hr v hv => wrap64_of_inInt64 (hin r hr v hv))]
    exact wrap64_of_inInt64 htot

theorem GetFromCounts_Create_totals_witness :
    (∃ bins0 bins, Create [100, 1000] = some bins0 ∧
      GetFromCounts decodeRanks ["Rank(s) 0-3: 50 150 2000".toList] bins0 1 1 = .ret bins none ∧
      bins.length = [(100 : Int), 1000].length + 1 ∧
      ∀ (i : Nat) (b0 b : Data), bins0[i]? = some b0 → bins[i]? = some b →
        b.Min = b0.Min ∧ b.Max = b0.Max ∧
        b.Size = wrap64 (1 * specTotal (fun v => wrap64 (v * 1)) decodeRanks
          ["Rank(s) 0-3: 50 150 2000".toList] b0.Min b0.Max
          (decide (i = [(100 : Int), 1000].length))) ∧
        ((∀ r ∈ ["Rank(s) 0-3: 50 150 2000".toList], ∀ v ∈ recordValues r, inInt64 (v * 1)) →
          inInt64 (1 * specTotal (fun v => v * 1) decodeRanks
            ["Rank(s) 0-3: 50 150 2000".toList] b0.Min b0.Max
            (decide (i = [(100 : Int), 1000].length))) →
          b.Size = 1 * specTotal (fun v => v * 1) decodeRanks
            ["Rank(s) 0-3: 50 150 2000".toList] b0.Min b0.Max
            (decide (i = [(100 : Int), 1000].length)))) ∧
    GetFromCounts decodeRanks ["Rank(s) 0-3: 50 150 2000".toList]
      [⟨0, 100, 0⟩, ⟨100, 1000, 0⟩, ⟨1000, -1, 0⟩] 1 1 =
      .ret [⟨0, 100, 4⟩, ⟨100, 1000, 4⟩, ⟨1000, -1, 4⟩] none :=
  ⟨GetFromCounts_Create_totals decodeRanks [100, 1000] ["Rank(s) 0-3: 50 150 2000".toList] 1 1
    (by decide) (by decide) (by decide) (by decide) (by decide) (by decide), by decide⟩

/-! ## Errors of `GetFromCounts` -/

/-- C5: called with `numCalls = 0` or with `datatypeSize = 0`, whatever the
records, `GetFromCounts` returns an error together with the bin list it was
given, unchanged. -/
theorem GetFromCounts_zero_precondition (decode : Str → Except GoError (List Int))
    (counts : List Str) (bins : List Data) (numCalls datatypeSize : Int)
    (h : numCalls = 0 ∨ datatypeSize = 0) :
    ∃ err, GetFromCounts decode counts bins numCalls datatypeSize = .ret bins (some err) := by
  unfold GetFromCounts
  by_cases hc : numCalls = 0
  · exact ⟨_, by rw [if_pos hc]⟩
  · have hd : datatypeSize = 0 := h.resolve_left hc
    exact ⟨_, by rw [if_neg hc, if_pos hd]⟩

theorem GetFromCounts_zero_precondition_witness :
    ∃ err, GetFromCounts decodeRanks ["no delimiter here".toList, "Rank(s) 0-3: 50".toList]
      [⟨0, 100, 3⟩, ⟨100, -1, 5⟩] 7 0 = .ret [⟨0, 100, 3⟩, ⟨100, -1, 5⟩] (some err) :=
  GetFromCounts_zero_precondition decodeRanks
    ["no delimiter here".toList, "Rank(s) 0-3: 50".toList] [⟨0, 100, 3⟩, ⟨100, -1, 5⟩] 7 0
    (Or.inr rfl)

theorem countLoop_err_iff (numCalls : Int) (nRanks : Nat) (datatypeSize : Int) :
    ∀ (toks : List Str) (bins : List Data), (∀ t ∈ toks, t ≠ []) →
      ∃ bins' err, countLoop numCalls nRanks datatypeSize toks bins = (bins', err) ∧
        (err.isSome = true ↔ toks.any (fun t => (tokenValue t).isNone) = true) := by
  intro toks
  induction toks with
  | nil => intro bins _; exact ⟨bins, none, rfl, by simp⟩
  | cons t rest ih =>
      intro bins hne
      have ht : t ≠ [] := hne t (List.mem_cons_self _ _)
      simp only [countLoop, if_neg ht]
      cases hat : Atoi t with
      | error e =>
          refine ⟨bins, some e, rfl, ?_⟩
          simp [tokenValue, hat]
      | ok v =>
          obtain ⟨bins', err, heq, hiff⟩ :=
            ih (binLoop (wrap64 (v * datatypeSize)) (wrap64 (numCalls * (nRanks : Int))) bins)
              (fun t ht => hne t (List.mem_cons_of_mem _ ht))
          refine ⟨bins', err, heq, ?_⟩
          rw [hiff]
          simp [tokenValue, hat]

theorem recordLoop_err_iff (decode : Str → Except GoError (List Int))
    (numCalls datatypeSize : Int) :
    ∀ (counts : List Str) (bins : List Data),
      (∀ c ∈ counts, (recordParts c).isSome = true) →
      ∃ bins' err, recordLoop decode numCalls datatypeSize counts bins = .ret bins' err ∧
        (err.isSome = true ↔ ∃ c ∈ counts, recordFails decode c = true) := by
  intro counts
  induction counts with
  | nil => intro bins _; exact ⟨bins, none, rfl, by simp⟩
  | cons c rest ih =>
      intro bins hdelim
      have hc := hdelim c (List.mem_cons_self _ _)
      have hrest : ∀ c ∈ rest, (recordParts c).isSome = true :=
        fun c hc => hdelim c (List.mem_cons_of_mem _ hc)
      obtain ⟨⟨descr, toks⟩, hparts⟩ := Option.isSome_iff_exists.mp hc
      rw [recordLoop_of_parts decode numCalls datatypeSize c rest bins descr toks hparts]
      cases hdec : decode descr with
      | error e =>
          refine ⟨bins, some e, rfl, ?_⟩
          simp [recordFails, hparts, hdec]
      | ok listRanks =>
          simp only
          by_cases hz : listRanks.length = 0
          · rw [if_pos hz]
            refine ⟨bins, _, rfl, ?_⟩
            simp only [Option.isSome_some, true_iff]
            refine ⟨c, List.mem_cons_self _ _, ?_⟩
            simp [recordFails, hparts, hdec, hz]
          · rw [if_neg hz]
            obtain ⟨bins1, err1, heq1, hiff1⟩ :=
              countLoop_err_iff numCalls listRanks.length datatypeSize toks bins
                (recordParts_tokens_ne hparts)
            rw [heq1]
            cases err1 with
            | some e =>
                refine ⟨bins1, some e, rfl, ?_⟩
                have hany := hiff1.mp rfl
                simp only [Option.isSome_some, true_iff]
                refine ⟨c, List.mem_cons_self _ _, ?_⟩
                simp [recordFails, hparts, hdec, hany]
            | none =>
                have hany : toks.any (fun t => (tokenValue t).isNone) = false := by
                  cases hb : toks.any (fun t => (tokenValue t).isNone) with
                  | false => rfl
                  | true => exact absurd (hiff1.mpr hb) (by simp)
                have hcf : recordFails decode c = false := by
                  simp only [recordFails, hparts, hdec, hany, Bool.or_false]
                  simpa using hz
                obtain ⟨bins2, err2, heq2, hiff2⟩ := ih bins1 hrest
                refine ⟨bins2, err2, heq2, ?_⟩
                rw [hiff2]
                simp [hcf]

/-- C6: evaluation at the failing inputs. The record `"Rank(s) 0"` holds no
delimiter: its descriptor `"0"` decodes to one rank and it has no count token,
yet the call panics on `tokens[1]` and returns no `nil` error; the record
`"x"` panics as well, although its descriptor does not decode and an error is
due. The record `"Rank(s) " ++ " 0-3" ++ ": " ++ "50"` holds the delimiter and
its descriptor `" 0-3"` does not decode, yet the call hands `"0-3"` to the
decoder and returns `nil`. -/
theorem GetFromCounts_error_iff_fails :
    Split "Rank(s) 0".toList ": ".toList = ["Rank(s) 0".toList] ∧
    decodeRanks "0".toList = .ok [0] ∧
    GetFromCounts decodeRanks ["Rank(s) 0".toList] [⟨0, 100, 0⟩, ⟨100, -1, 0⟩] 1 1 = .panic ∧
    (¬ ∃ bins, GetFromCounts decodeRanks ["Rank(s) 0".toList]
      [⟨0, 100, 0⟩, ⟨100, -1, 0⟩] 1 1 = .ret bins none) ∧
    Split "x".toList ": ".toList = ["x".toList] ∧
    decodeRanks "x".toList = .error (.atoiSyntax "x".toList) ∧
    GetFromCounts decodeRanks ["x".toList] [⟨0, 100, 0⟩, ⟨100, -1, 0⟩] 1 1 = .panic ∧
    (¬ ∃ bins err, GetFromCounts decodeRanks ["x".toList]
      [⟨0, 100, 0⟩, ⟨100, -1, 0⟩] 1 1 = .ret bins (some err)) ∧
    "Rank(s)  0-3: 50".toList =
      "Rank(s) ".toList ++ " 0-3".toList ++ ": ".toList ++ "50".toList ∧
    decodeRanks " 0-3".toList = .error (.atoiSyntax " 0".toList) ∧
    GetFromCounts decodeRanks ["Rank(s)  0-3: 50".toList] [⟨0, 100, 0⟩, ⟨100, -1, 0⟩] 1 1 =
      .ret [⟨0, 100, 4⟩, ⟨100, -1, 0⟩] none := by
  have h1 : GetFromCounts decodeRanks ["Rank(s) 0".toList]
      [⟨0, 100, 0⟩, ⟨100, -1, 0⟩] 1 1 = .panic := by decide
  have h2 : GetFromCounts decodeRanks ["x".toList]
      [⟨0, 100, 0⟩, ⟨100, -1, 0⟩] 1 1 = .panic := by decide
  refine ⟨by decide, rfl, h1, ?_, by decide, rfl, h2, ?_, by decide, rfl, by decide⟩
  · rintro ⟨bins, hb⟩
    rw [h1] at hb
    cases hb
  · rintro ⟨bins, err, hb⟩
    rw [h2] at hb
    cases hb

/-- What the code does on records that all hold the delimiter `": "`, for
non-zero `numCalls` and `datatypeSize`: `GetFromCounts` returns, and it
returns an error if and only if some record fails in the code (`recordFails`:
the text handed to the decoder, not the descriptor itself, is what counts);
when no record fails in that way the returned error is `nil`. -/
theorem GetFromCounts_error_iff (decode : Str → Except GoError (List Int))
    (counts : List Str) (bins : List Data) (numCalls datatypeSize : Int)
    (hc : numCalls ≠ 0) (hd : datatypeSize ≠ 0)
    (hdelim : ∀ c ∈ counts, (recordParts c).isSome = true) :
    (∃ bins' err, GetFromCounts decode counts bins numCalls datatypeSize = .ret bins' err ∧
      (err.isSome = true ↔ ∃ c ∈ counts, recordFails decode c = true)) ∧
    ((∀ c ∈ counts, recordFails decode c = false) →
      ∃ bins', GetFromCounts decode counts bins numCalls datatypeSize = .ret bins' none) := by
  unfold GetFromCounts
  rw [if_neg hc, if_neg hd]
  obtain ⟨bins', err, heq, hiff⟩ := recordLoop_err_iff decode numCalls datatypeSize counts bins hdelim
  refine ⟨⟨bins', err, heq, hiff⟩, ?_⟩
  intro hall
  refine ⟨bins', ?_⟩
  rw [heq]
  cases err with
  | none => rfl
  | some e =>
      obtain ⟨c, hcm, hcf⟩ := hiff.mp rfl
      rw [hall c hcm] at hcf
      cases hcf

/-! ## The stream driver -/

theorem binLoop_length (val inc : Int) (bins : List Data) :
    (binLoop val inc bins).length = bins.length := by
  induction bins with
  | nil => rfl
  | cons b rest ih =>
      unfold binLoop
      split
      · rfl
      · simp [ih]

theorem countLoop_length (numCalls : Int) (nRanks : Nat) (datatypeSize : Int) :
    ∀ (toks : List Str) (bins : List Data),
      (countLoop numCalls nRanks datatypeSize toks bins).1.length = bins.length := by
  intro toks
  induction toks with
  | nil => intro bins; rfl
  | cons t rest ih =>
      intro bins
      unfold countLoop
      split
      · exact ih bins
      · split
        · rfl
        · rw [ih, binLoop_length]

theorem recordLoop_length (decode : Str → Except GoError (List Int))
    (numCalls datatypeSize : Int) :
    ∀ (counts : List Str) (bins bins' : List Data) (err : Option GoError),
      recordLoop decode numCalls datatypeSize counts bins = .ret bins' err →
      bins'.length = bins.length := by
  intro counts
  induction counts with
  | nil =>
      intro bins bins' err h
      simp only [recordLoop, Outcome.ret.injEq] at h
      rw [← h.1]
  | cons c rest ih =>
      intro bins bins' err h
      cases hparts : recordParts c with
      | none =>
          rw [recordLoop_no_delimiter decode numCalls datatypeSize c rest bins hparts] at h
          cases h
      | some p =>
          obtain ⟨descr, toks⟩ := p
          rw [recordLoop_of_parts decode numCalls datatypeSize c rest bins descr toks hparts] at h
          cases hdec : decode descr with
          | error e =>
              rw [hdec] at h
              simp only [Outcome.ret.injEq] at h
              rw [← h.1]
          | ok listRanks =>
              rw [hdec] at h
              simp only at h
              split at h
              · simp only [Outcome.ret.injEq] at h
                rw [← h.1]
              · have hlen := countLoop_length numCalls listRanks.length datatypeSize toks bins
                split at h
                · rename_i bins1 e heq
                  simp only [Outcome.ret.injEq] at h
                  rw [heq] at hlen
                  rw [← h.1]
                  exact hlen
                · rename_i bins1 heq
                  rw [heq] at hlen
                  rw [ih bins1 bins' err h]
                  exact hlen

theorem GetFromCounts_length (decode : Str → Except GoError (List Int)) (counts : List Str)
    (bins bins' : List Data) (numCalls datatypeSize : Int) (err : Option GoError)
    (h : GetFromCounts decode counts bins numCalls datatypeSize = .ret bins' err) :
    bins'.length = bins.length := by
  unfold GetFromCounts at h
  split at h
  · simp only [Outcome.ret.injEq] at h
    rw [← h.1]
  · split at h
    · simp only [Outcome.ret.injEq] at h
      rw [← h.1]
    · exact recordLoop_length decode numCalls datatypeSize counts bins bins' err h

theorem GetFromReaderLoop_batches (decode : Str → Except GoError (List Int)) :
    ∀ (batches : List Batch) (bins final : List Data),
      foldBatches decode batches (some bins) = some final →
      GetFromReaderLoop decode (readerOf batches) { addr := 0, len := bins.length } [bins] =
        .ret final none := by
  intro batches
  induction batches with
  | nil =>
      intro bins final h
      simp only [foldBatches, Option.some.injEq] at h
      subst h
      simp [readerOf, GetFromReaderLoop, Slice.elems]
  | cons b rest ih =>
      intro bins final h
      simp only [foldBatches] at h
      have hstep : readerOf (b :: rest) = ReadStep.batch b.1 b.2.1 b.2.2 :: readerOf rest := rfl
      rw [hstep]
      simp only [GetFromReaderLoop, callGetFromCounts, Slice.elems, List.getD_cons_zero,
        List.take_length]
      cases hcall : GetFromCounts decode b.2.2 bins (b.1 : Int) b.2.1 with
      | panic =>
          rw [hcall] at h
          cases h
      | ret bins' err =>
          rw [hcall] at h
          cases err with
          | some e => cases h
          | none =>
              simp only at h
              have hlen := GetFromCounts_length decode b.2.2 bins bins' _ _ _ hcall
              simp only [List.drop_length, List.append_nil, List.set_cons_zero]
              rw [← hlen]
              exact ih bins' final h

/-- C7: on a stream of batches that ends with the clean end of the stream and
on which every call of `GetFromCounts` succeeds, `GetFromReader` returns, with
a `nil` error, the left fold of `GetFromCounts` over the batches in order,
started from `Create(listBins)`: the totals of all the iterations. -/
theorem GetFromReader_accumulates (decode : Str → Except GoError (List Int))
    (listBins : List Int) (batches : List Batch) (final : List Data)
    (h : foldBatches decode batches (Create listBins) = some final) :
    GetFromReader decode (readerOf batches) listBins = .ret final none := by
  unfold GetFromReader
  cases hcreate : Create listBins with
  | none =>
      rw [hcreate] at h
      cases batches <;> simp [foldBatches] at h
  | some bins =>
      rw [hcreate] at h
      exact GetFromReaderLoop_batches decode batches bins final h

theorem GetFromReader_accumulates_witness :
    GetFromReader decodeRanks
      (readerOf [(1, 1, ["Rank(s) 0-3: 50 150 2000".toList]), (2, 8, ["Rank(s) 5: 20".toList])])
      [100, 1000] = .ret [⟨0, 100, 4⟩, ⟨100, 1000, 6⟩, ⟨1000, -1, 4⟩] none :=
  GetFromReader_accumulates decodeRanks [100, 1000]
    [(1, 1, ["Rank(s) 0-3: 50 150 2000".toList]), (2, 8, ["Rank(s) 5: 20".toList])]
    [⟨0, 100, 4⟩, ⟨100, 1000, 6⟩, ⟨1000, -1, 4⟩] (by decide)

/-! ## Output files -/

/-- C8: `getOutputFile` names the file of bin `b`
`bin.job<jobid>.comm<commId>.rank<rank>_<Min>-<Max>.txt` when `b.Max ≠ -1` and
`bin.job<jobid>.comm<commId>.rank<rank>_<Min>+.txt` when `b.Max = -1`, the
numbers written as `%d` writes them; the name is returned bare when `dir` is
empty and joined under `dir` otherwise. For job 3, communicator 1, rank 2 the
bin `[100,1000)` gives `bin.job3.comm1.rank2_100-1000.txt` and the unbounded
bin from 1000 gives `bin.job3.comm1.rank2_1000+.txt`. -/
theorem getOutputFile_name :
    (∀ (join : Str → Str → Str) (dir : Str) (jobid commId rank : Int) (b : Data),
      getOutputFile join dir jobid commId rank b =
        (if dir = [] then id else join dir)
          ("bin.job".toList ++ fmtInt jobid ++ ".comm".toList ++ fmtInt commId ++
            ".rank".toList ++ fmtInt rank ++ "_".toList ++ fmtInt b.Min ++
            (if b.Max = -1 then "+".toList else "-".toList ++ fmtInt b.Max) ++
            ".txt".toList)) ∧
    getOutputFile filepathJoin [] 3 1 2 ⟨100, 1000, 0⟩ =
      "bin.job3.comm1.rank2_100-1000.txt".toList ∧
    getOutputFile filepathJoin [] 3 1 2 ⟨1000, -1, 0⟩ =
      "bin.job3.comm1.rank2_1000+.txt".toList ∧
    getOutputFile filepathJoin "out".toList 3 1 2 ⟨1000, -1, 0⟩ =
      "out/bin.job3.comm1.rank2_1000+.txt".toList := by
  refine ⟨?_, by decide, by decide, by decide⟩
  intro join dir jobid commId rank b
  unfold getOutputFile
  by_cases hd : dir = [] <;> by_cases hm : b.Max = -1 <;>
    simp [hd, hm, List.append_assoc]

theorem FilesExistLoop_eq_all (pathExists : Str → Bool) (join : Str → Str → Str)
    (outputDir : Str) (jobid commId rank : Int) (bins : List Data) :
    FilesExistLoop pathExists join outputDir jobid commId rank bins =
      bins.all fun b => pathExists (getOutputFile join outputDir jobid commId rank b) := by
  induction bins with
  | nil => rfl
  | cons b rest ih =>
      unfold FilesExistLoop
      cases hp : pathExists (getOutputFile join outputDir jobid commId rank b) <;>
        simp [hp, ih]

/-- C9: for a non-empty threshold list and any state of the directory,
`FilesExist` returns `true` if and only if the path `getOutputFile` gives
exists for every bin of `Create(listBins)`, and `false` if and only if the
path of some bin is missing. -/
theorem FilesExist_iff (pathExists : Str → Bool) (join : Str → Str → Str)
    (outputDir : Str) (jobid commId rank : Int) (listBins : List Int) (h : listBins ≠ []) :
    ∃ bins r, Create listBins = some bins ∧
      FilesExist pathExists join outputDir jobid commId rank listBins = some r ∧
      (r = true ↔
        ∀ b ∈ bins, pathExists (getOutputFile join outputDir jobid commId rank b) = true) ∧
      (r = false ↔
        ∃ b ∈ bins, pathExists (getOutputFile join outputDir jobid commId rank b) = false) := by
  refine ⟨mkBins 0 (listBins ++ [-1]),
    FilesExistLoop pathExists join outputDir jobid commId rank (mkBins 0 (listBins ++ [-1])),
    Create_eq_mkBins listBins h, ?_, ?_, ?_⟩
  · unfold FilesExist
    rw [Create_eq_mkBins listBins h]
  · rw [FilesExistLoop_eq_all, List.all_eq_true]
  · rw [FilesExistLoop_eq_all, List.all_eq_false]
    simp

theorem FilesExist_iff_witness :
    ∃ bins r, Create [100] = some bins ∧
      FilesExist (fun p => p == "out/bin.job3.comm1.rank2_0-100.txt".toList) filepathJoin
        "out".toList 3 1 2 [100] = some r ∧
      (r = true ↔
        ∀ b ∈ bins, (fun p => p == "out/bin.job3.comm1.rank2_0-100.txt".toList)
          (getOutputFile filepathJoin "out".toList 3 1 2 b) = true) ∧
      (r = false ↔
        ∃ b ∈ bins, (fun p => p == "out/bin.job3.comm1.rank2_0-100.txt".toList)
          (getOutputFile filepathJoin "out".toList 3 1 2 b) = false) :=
  FilesExist_iff (fun p => p == "out/bin.job3.comm1.rank2_0-100.txt".toList) filepathJoin
    "out".toList 3 1 2 [100] (by decide)

/-! ## Decimal text -/

theorem digitChar_props :
    ∀ d, d < 10 → (Nat.digitChar d).isDigit = true ∧ (Nat.digitChar d).toNat - 48 = d := by
  decide

theorem toDigitsCore_isDigit :
    ∀ (fuel n : Nat) (ds : List Char), (∀ c ∈ ds, c.isDigit = true) →
      ∀ c ∈ Nat.toDigitsCore 10 fuel n ds, c.isDigit = true := by
  intro fuel
  induction fuel with
  | zero => intro n ds h; simpa [Nat.toDigitsCore] using h
  | succ fuel ih =>
      intro n ds h
      have hd := (digitChar_props (n % 10) (Nat.mod_lt _ (by decide))).1
      have hcons : ∀ c ∈ Nat.digitChar (n % 10) :: ds, c.isDigit = true := by
        intro c hc
        rcases List.mem_cons.mp hc with rfl | hc
        · exact hd
        · exact h c hc
      unfold Nat.toDigitsCore
      simp only
      split
      · exact hcons
      · exact ih _ _ hcons

theorem toDigitsCore_ne_nil :
    ∀ (fuel n : Nat) (ds : List Char), ds ≠ [] ∨ 0 < fuel →
      Nat.toDigitsCore 10 fuel n ds ≠ [] := by
  intro fuel
  induction fuel with
  | zero =>
      intro n ds h
      rcases h with h | h
      · simpa [Nat.toDigitsCore] using h
      · omega
  | succ fuel ih =>
      intro n ds _
      unfold Nat.toDigitsCore
      simp only
      split
      · simp
      · exact ih _ _ (Or.inl (by simp))

theorem toDigitsCore_value :
    ∀ (fuel n : Nat) (ds : List Char), n < fuel →
      (Nat.toDigitsCore 10 fuel n ds).foldl (fun n ch => n * 10 + (ch.toNat - 48)) 0 =
        ds.foldl (fun n ch => n * 10 + (ch.toNat - 48)) n := by
  intro fuel
  induction fuel with
  | zero => intro n ds h; omega
  | succ fuel ih =>
      intro n ds h
      have hd := (digitChar_props (n % 10) (Nat.mod_lt _ (by decide))).2
      unfold Nat.toDigitsCore
      simp only
      split
      · rename_i h0
        simp only [List.foldl_cons, hd]
        congr 1
        omega
      · rename_i h0
        rw [ih (n / 10) _ (by omega)]
        simp only [List.foldl_cons, hd]
        congr 1
        omega

theorem toDigits_props (n : Nat) :
    Nat.toDigits 10 n ≠ [] ∧ (∀ c ∈ Nat.toDigits 10 n, c.isDigit = true) ∧
      digitsValue (Nat.toDigits 10 n) = n := by
  refine ⟨toDigitsCore_ne_nil _ _ _ (Or.inr (by omega)),
    toDigitsCore_isDigit _ _ _ (by simp), ?_⟩
  unfold digitsValue Nat.toDigits
  rw [toDigitsCore_value _ _ _ (by omega)]
  rfl

theorem Atoi_digits (ds : Str) (hne : ds ≠ []) (hdig : ∀ c ∈ ds, c.isDigit = true)
    (hval : digitsValue ds < 9223372036854775808) :
    Atoi ds = .ok (digitsValue ds : Int) := by
  cases ds with
  | nil => exact absurd rfl hne
  | cons c cs =>
      have hc : c.isDigit = true := hdig c (List.mem_cons_self _ _)
      have hminus : c ≠ '-' := by
        rintro rfl
        exact absurd hc (by decide)
      have hplus : c ≠ '+' := by
        rintro rfl
        exact absurd hc (by decide)
      have hall : (c :: cs).all Char.isDigit = true := List.all_eq_true.mpr hdig
      have hm : (some c == some '-') = false := by simpa using hminus
      have hp : (some c == some '+') = false := by simpa using hplus
      unfold Atoi
      simp only [List.head?_cons, hm, hp, Bool.or_self, Bool.false_eq_true, if_false,
        List.isEmpty_cons, hall, Bool.not_true]
      rw [if_neg (by omega)]

theorem Atoi_minus_digits (ds : Str) (hne : ds ≠ []) (hdig : ∀ c ∈ ds, c.isDigit = true)
    (hval : digitsValue ds ≤ 9223372036854775808) :
    Atoi ('-' :: ds) = .ok (-(digitsValue ds : Int)) := by
  have hall : ds.all Char.isDigit = true := List.all_eq_true.mpr hdig
  have hemp : ds.isEmpty = false := by
    cases ds with
    | nil => exact absurd rfl hne
    | cons c cs => rfl
  unfold Atoi
  simp only [List.head?_cons, beq_self_eq_true, Bool.true_or, if_true, List.tail_cons, hemp,
    Bool.false_eq_true, if_false, hall, Bool.not_true]
  rw [if_neg (by omega)]

theorem Atoi_fmtInt (x : Int) (hx : inInt64 x) : Atoi (fmtInt x) = .ok x := by
  unfold inInt64 at hx
  cases x with
  | ofNat n =>
      obtain ⟨h1, h2, h3⟩ := toDigits_props n
      have hn : (n : Int) < 9223372036854775808 := hx.2
      simp only [fmtInt]
      rw [Atoi_digits _ h1 h2 (by rw [h3]; omega), h3]
      rfl
  | negSucc n =>
      obtain ⟨h1, h2, h3⟩ := toDigits_props (n + 1)
      have hn : -9223372036854775808 ≤ Int.negSucc n := hx.1
      have hneg : Int.negSucc n = -(((n + 1 : Nat) : Int)) := rfl
      rw [hneg] at hn
      simp only [fmtInt]
      rw [Atoi_minus_digits _ h1 h2 (by rw [h3]; omega), h3]
      rfl

theorem fmtInt_no_comma (x : Int) : ',' ∉ fmtInt x := by
  intro h
  cases x with
  | ofNat n =>
      simp only [fmtInt] at h
      exact absurd ((toDigits_props n).2.1 _ h) (by decide)
  | negSucc n =>
      simp only [fmtInt, List.mem_cons] at h
      rcases h with h | h
      · exact absurd h (by decide)
      · exact absurd ((toDigits_props (n + 1)).2.1 _ h) (by decide)

/-! ## The threshold list -/

theorem splitGo_zero_cons (sep : Str) (c : Char) (cs cur : Str) :
    splitGo sep 0 (c :: cs) cur =
      if sep.isPrefixOf (c :: cs) then cur.reverse :: splitGo sep (sep.length - 1) cs []
      else splitGo sep 0 cs (c :: cur) := by
  rw [splitGo]

theorem splitGo_comma_none :
    ∀ (s cur : Str), ',' ∉ s → splitGo [','] 0 s cur = [cur.reverse ++ s] := by
  intro s
  induction s with
  | nil => intro cur _; simp [splitGo]
  | cons c cs ih =>
      intro cur h
      have hc : c ≠ ',' := fun hc => h (hc ▸ List.mem_cons_self _ _)
      have hcs : ',' ∉ cs := fun hm => h (List.mem_cons_of_mem _ hm)
      have hpre : List.isPrefixOf [','] (c :: cs) = false := by
        simp [List.isPrefixOf, Ne.symm hc]
      simp only [splitGo, hpre, Bool.false_eq_true, if_false]
      rw [ih (c :: cur) hcs]
      simp

theorem splitGo_comma_cons :
    ∀ (s rest cur : Str), ',' ∉ s →
      splitGo [','] 0 (s ++ ',' :: rest) cur = (cur.reverse ++ s) :: splitGo [','] 0 rest [] := by
  intro s
  induction s with
  | nil =>
      intro rest cur _
      have hpre : List.isPrefixOf [','] (',' :: rest) = true := by
        simp [List.isPrefixOf]
      simp [splitGo, hpre]
  | cons c cs ih =>
      intro rest cur h
      have hc : c ≠ ',' := fun hc => h (hc ▸ List.mem_cons_self _ _)
      have hcs : ',' ∉ cs := fun hm => h (List.mem_cons_of_mem _ hm)
      have hpre : List.isPrefixOf [','] (c :: (cs ++ ',' :: rest)) = false := by
        simp [List.isPrefixOf, Ne.symm hc]
      rw [List.cons_append, splitGo_zero_cons, hpre, if_neg (by simp), ih rest (c :: cur) hcs]
      simp

theorem Split_joinWith_comma :
    ∀ ss : List Str, ss ≠ [] → (∀ s ∈ ss, ',' ∉ s) →
      Split (joinWith [','] ss) [','] = ss := by
  intro ss
  induction ss with
  | nil => intro h; exact absurd rfl h
  | cons s rest ih =>
      intro _ hno
      have hs : ',' ∉ s := hno s (List.mem_cons_self _ _)
      cases rest with
      | nil =>
          simp only [joinWith, Split]
          rw [splitGo_comma_none s [] hs]
          simp
      | cons t rest' =>
          have hrest := ih (by simp) (fun x hx => hno x (List.mem_cons_of_mem _ hx))
          simp only [Split] at hrest
          simp only [joinWith, Split, List.append_assoc, List.singleton_append]
          rw [splitGo_comma_cons s _ [] hs, hrest]
          simp

theorem GetFromInputDescrLoop_fmtInt :
    ∀ (L acc : List Int), (∀ x ∈ L, inInt64 x) →
      GetFromInputDescrLoop (L.map fmtInt) acc = .ok (acc ++ L) := by
  intro L
  induction L with
  | nil => intro acc _; simp [GetFromInputDescrLoop]
  | cons x rest ih =>
      intro acc h
      simp only [List.map_cons, GetFromInputDescrLoop,
        Atoi_fmtInt x (h x (List.mem_cons_self _ _))]
      rw [ih (acc ++ [x]) (fun y hy => h y (List.mem_cons_of_mem _ hy))]
      simp

theorem GetFromInputDescrLoop_fails :
    ∀ (pieces : List Str) (acc : List Int),
      (∃ s ∈ pieces, ∃ err, Atoi s = .error err) →
      ∃ err, GetFromInputDescrLoop pieces acc = .error err := by
  intro pieces
  induction pieces with
  | nil => rintro acc ⟨s, hs, _⟩; cases hs
  | cons p rest ih =>
      intro acc hex
      unfold GetFromInputDescrLoop
      cases hp : Atoi p with
      | error e => exact ⟨e, rfl⟩
      | ok n =>
          simp only
          apply ih
          obtain ⟨s, hs, err, herr⟩ := hex
          rcases List.mem_cons.mp hs with rfl | hs
          · rw [hp] at herr
            cases herr
          · exact ⟨s, hs, err, herr⟩

/-- C10: for every non-empty list `L` of values of type `int`,
`GetFromInputDescr` applied to the decimal texts of `L` joined by `","`
returns `L`, in the same order; for every input of which a comma-separated
piece is rejected by `strconv.Atoi` the operation ends in `log.Fatalf`. So
`"1024,65536,1048576"` gives `[1024, 65536, 1048576]`, and the empty string
and `"1,"` are fatal. -/
theorem GetFromInputDescr_parses :
    (∀ L : List Int, L ≠ [] → (∀ x ∈ L, inInt64 x) →
      GetFromInputDescr (joinWith ",".toList (L.map fmtInt)) = .ok L) ∧
    (∀ binStr : Str, (∃ s ∈ Split binStr ",".toList, ∃ err, Atoi s = .error err) →
      ∃ err, GetFromInputDescr binStr = .error err) ∧
    GetFromInputDescr "1024,65536,1048576".toList = .ok [1024, 65536, 1048576] ∧
    GetFromInputDescr "".toList = .error (.atoiSyntax []) ∧
    GetFromInputDescr "1,".toList = .error (.atoiSyntax []) := by
  refine ⟨?_, ?_, rfl, rfl, rfl⟩
  · intro L hL hin
    unfold GetFromInputDescr
    have hsplit : Split (joinWith ",".toList (L.map fmtInt)) ",".toList = L.map fmtInt := by
      apply Split_joinWith_comma
      · simpa using hL
      · intro s hs
        obtain ⟨x, _, rfl⟩ := List.mem_map.mp hs
        exact fmtInt_no_comma x
    rw [hsplit, GetFromInputDescrLoop_fmtInt L [] hin]
    simp
  · intro binStr hex
    exact GetFromInputDescrLoop_fails _ [] hex

theorem GetFromInputDescr_parses_witness :
    GetFromInputDescr (joinWith ",".toList ([1024, -5, 0].map fmtInt)) = .ok [1024, -5, 0] ∧
    ∃ err, GetFromInputDescr "12,x3".toList = .error err :=
  ⟨GetFromInputDescr_parses.1 [1024, -5, 0] (by decide) (by decide),
    GetFromInputDescr_parses.2.1 "12,x3".toList
      ⟨"x3".toList, by decide, .atoiSyntax "x3".toList, rfl⟩⟩

/-! ## The sign of the sizes -/

theorem binLoop_Size_bound (val K M : Int) (hK : 0 ≤ K) (hM : M + K < 9223372036854775808) :
    ∀ bins : List Data, (∀ b ∈ bins, 0 ≤ b.Size ∧ b.Size ≤ M) →
      ∀ b ∈ binLoop val (wrap64 K) bins, 0 ≤ b.Size ∧ b.Size ≤ M + K := by
  intro bins
  induction bins with
  | nil => intro _ b hb; cases hb
  | cons b0 rest ih =>
      intro h b hb
      have h0 := h b0 (List.mem_cons_self _ _)
      have hrest : ∀ b ∈ rest, 0 ≤ b.Size ∧ b.Size ≤ M :=
        fun x hx => h x (List.mem_cons_of_mem _ hx)
      unfold binLoop at hb
      split at hb
      · rcases List.mem_cons.mp hb with rfl | hb
        · have hKr : wrap64 K = K := wrap64_of_inInt64 (by unfold inInt64; omega)
          have hsum : wrap64 (b0.Size + K) = b0.Size + K :=
            wrap64_of_inInt64 (by unfold inInt64; omega)
          simp only [hKr, hsum]
          omega
        · have := hrest b hb
          omega
      · rcases List.mem_cons.mp hb with rfl | hb
        · omega
        · exact ih hrest b hb

theorem countLoop_Size_bound (numCalls : Int) (nRanks : Nat) (datatypeSize : Int)
    (hK : 0 ≤ numCalls * (nRanks : Int)) :
    ∀ (toks : List Str) (bins : List Data) (M : Int),
      (∀ b ∈ bins, 0 ≤ b.Size ∧ b.Size ≤ M) →
      M + numCalls * (nRanks : Int) * (toks.length : Int) < 9223372036854775808 →
      ∀ b ∈ (countLoop numCalls nRanks datatypeSize toks bins).1,
        0 ≤ b.Size ∧ b.Size ≤ M + numCalls * (nRanks : Int) * (toks.length : Int) := by
  intro toks
  induction toks with
  | nil =>
      intro bins M h _ b hb
      have := h b hb
      simpa [countLoop] using this
  | cons t rest ih =>
      intro bins M h hM b hb
      have hlen : ((t :: rest).length : Int) = (rest.length : Int) + 1 := by simp
      have hmul : numCalls * (nRanks : Int) * ((t :: rest).length : Int) =
          numCalls * (nRanks : Int) * (rest.length : Int) + numCalls * (nRanks : Int) := by
        rw [hlen]; ring
      have hnn : 0 ≤ numCalls * (nRanks : Int) * (rest.length : Int) :=
        mul_nonneg hK (by omega)
      rw [hmul] at hM ⊢
      unfold countLoop at hb
      split at hb
      · have := ih bins M h (by omega) b hb
        omega
      · split at hb
        · have := h b hb
          omega
        · rename_i countVal _
          have hstep := binLoop_Size_bound (wrap64 (countVal * datatypeSize))
            (numCalls * (nRanks : Int)) M hK (by omega) bins h
          have := ih _ (M + numCalls * (nRanks : Int)) hstep (by omega) b hb
          omega

theorem totalWeight_cons (decode : Str → Except GoError (List Int)) (c : Str)
    (rest : List Str) :
    totalWeight decode (c :: rest) = recordWeight decode c + totalWeight decode rest := by
  simp [totalWeight]

theorem recordLoop_Size_bound (decode : Str → Except GoError (List Int))
    (numCalls datatypeSize : Int) (hc : 0 ≤ numCalls) :
    ∀ (counts : List Str) (bins : List Data) (M : Int) (bins' : List Data)
      (err : Option GoError),
      (∀ b ∈ bins, 0 ≤ b.Size ∧ b.Size ≤ M) →
      M + numCalls * (totalWeight decode counts : Int) < 9223372036854775808 →
      recordLoop decode numCalls datatypeSize counts bins = .ret bins' err →
      ∀ b ∈ bins', 0 ≤ b.Size ∧
        b.Size ≤ M + numCalls * (totalWeight decode counts : Int) := by
  intro counts
  induction counts with
  | nil =>
      intro bins M bins' err h _ hret b hb
      simp only [recordLoop, Outcome.ret.injEq] at hret
      rw [← hret.1] at hb
      have := h b hb
      simpa [totalWeight] using this
  | cons c rest ih =>
      intro bins M bins' err h hM hret b hb
      have hWr : 0 ≤ numCalls * (totalWeight decode rest : Int) := mul_nonneg hc (by omega)
      have hWc : 0 ≤ numCalls * (recordWeight decode c : Int) := mul_nonneg hc (by omega)
      have hsplit : numCalls * (totalWeight decode (c :: rest) : Int) =
          numCalls * (recordWeight decode c : Int) + numCalls * (totalWeight decode rest : Int) := by
        rw [totalWeight_cons]; push_cast; ring
      rw [hsplit] at hM ⊢
      cases hparts : recordParts c with
      | none =>
          rw [recordLoop_no_delimiter decode numCalls datatypeSize c rest bins hparts] at hret
          cases hret
      | some p =>
          obtain ⟨descr, toks⟩ := p
          rw [recordLoop_of_parts decode numCalls datatypeSize c rest bins descr toks hparts]
            at hret
          cases hdec : decode descr with
          | error e =>
              rw [hdec] at hret
              simp only [Outcome.ret.injEq] at hret
              rw [← hret.1] at hb
              have := h b hb
              omega
          | ok listRanks =>
              rw [hdec] at hret
              simp only at hret
              have hw : (recordWeight decode c : Int) =
                  (listRanks.length : Int) * (toks.length : Int) := by
                simp [recordWeight, hparts, hdec]
              have hK : 0 ≤ numCalls * (listRanks.length : Int) := mul_nonneg hc (by omega)
              have hKw : numCalls * (recordWeight decode c : Int) =
                  numCalls * (listRanks.length : Int) * (toks.length : Int) := by
                rw [hw]; ring
              split at hret
              · simp only [Outcome.ret.injEq] at hret
                rw [← hret.1] at hb
                have := h b hb
                omega
              · have hcl := countLoop_Size_bound numCalls listRanks.length datatypeSize hK
                  toks bins M h (by omega)
                split at hret
                · rename_i bins1 e heq
                  simp only [Outcome.ret.injEq] at hret
                  rw [heq] at hcl
                  rw [← hret.1] at hb
                  have := hcl b hb
                  omega
                · rename_i bins1 heq
                  rw [heq] at hcl
                  have hcl' : ∀ b ∈ bins1, 0 ≤ b.Size ∧
                      b.Size ≤ M + numCalls * (recordWeight decode c : Int) := by
                    intro x hx
                    have := hcl x hx
                    omega
                  have := ih bins1 (M + numCalls * (recordWeight decode c : Int)) bins' err
                    hcl' (by omega) hret b hb
                  omega

/-- C11, failing instances: `numCalls = -1` passes both guards and takes the
`Size` of a bin of `Create [100]` from 0 to -4; and with `numCalls = 1` a
`Size` at the largest `int` wraps around to the smallest one. -/
theorem GetFromCounts_Size_negative :
    Create [100] = some [⟨0, 100, 0⟩, ⟨100, -1, 0⟩] ∧
    (-1 : Int) ≠ 0 ∧ (1 : Int) ≠ 0 ∧
    GetFromCounts decodeRanks ["Rank(s) 0-3: 50".toList] [⟨0, 100, 0⟩, ⟨100, -1, 0⟩] (-1) 1 =
      .ret [⟨0, 100, -4⟩, ⟨100, -1, 0⟩] none ∧
    GetFromCounts decodeRanks ["Rank(s) 0: 50".toList] [⟨0, -1, 9223372036854775807⟩] 1 1 =
      .ret [⟨0, -1, -9223372036854775808⟩] none := by
  decide

/-- C11, amended: for a bin list whose sizes are all non-negative,
`numCalls > 0` and records of total weight `W` (ranks times count tokens,
summed over the records) such that `Size + numCalls * W` stays in the range
of `int` for every bin, a call of `GetFromCounts` that returns, with or
without an error, returns only non-negative sizes. -/
theorem GetFromCounts_Size_nonneg (decode : Str → Except GoError (List Int))
    (counts : List Str) (bins : List Data) (numCalls datatypeSize : Int)
    (hc : 0 < numCalls) (hsz : ∀ b ∈ bins, 0 ≤ b.Size)
    (hbound : ∀ b ∈ bins,
      b.Size + numCalls * (totalWeight decode counts : Int) < 9223372036854775808) :
    GetFromCounts decode counts bins numCalls datatypeSize = .panic ∨
    ∃ bins' err, GetFromCounts decode counts bins numCalls datatypeSize = .ret bins' err ∧
      ∀ b ∈ bins', 0 ≤ b.Size := by
  cases h : GetFromCounts decode counts bins numCalls datatypeSize with
  | panic => exact Or.inl rfl
  | ret bins' err =>
      refine Or.inr ⟨bins', err, rfl, ?_⟩
      unfold GetFromCounts at h
      rw [if_neg (by omega)] at h
      split at h
      · simp only [Outcome.ret.injEq] at h
        rw [← h.1]
        exact hsz
      · intro b hb
        have hinv : ∀ b ∈ bins, 0 ≤ b.Size ∧ b.Size ≤
            9223372036854775807 - numCalls * (totalWeight decode counts : Int) := by
          intro x hx
          have h1 := hsz x hx
          have h2 := hbound x hx
          omega
        exact (recordLoop_Size_bound decode numCalls datatypeSize (by omega) counts bins _
          bins' err hinv (by omega) h b hb).1

theorem GetFromCounts_Size_nonneg_witness :
    GetFromCounts decodeRanks ["Rank(s) 0-3: 50 150".toList, "Rank(s) 7: x".toList]
      [⟨0, 100, 3⟩, ⟨100, -1, 0⟩] 2 1 = .panic ∨
    ∃ bins' err, GetFromCounts decodeRanks
      ["Rank(s) 0-3: 50 150".toList, "Rank(s) 7: x".toList]
      [⟨0, 100, 3⟩, ⟨100, -1, 0⟩] 2 1 = .ret bins' err ∧
      ∀ b ∈ bins', 0 ≤ b.Size :=
  GetFromCounts_Size_nonneg decodeRanks ["Rank(s) 0-3: 50 150".toList, "Rank(s) 7: x".toList]
    [⟨0, 100, 3⟩, ⟨100, -1, 0⟩] 2 1 (by decide) (by decide) (by decide)

/-! ## Values that no bin takes -/

theorem exists_match_mkBins (T : List Int) :
    ∀ (start val : Int), start ≤ val →
      ∃ b ∈ mkBins start (T ++ [-1]), binMatches b val = true := by
  induction T with
  | nil =>
      intro start val h
      exact ⟨⟨start, -1, 0⟩, by simp [mkBins], by simp [binMatches, h]⟩
  | cons t ts ih =>
      intro start val h
      rw [mkBins_cons_append]
      by_cases hs : t = -1
      · exact ⟨⟨start, t, 0⟩, List.mem_cons_self _ _, by simp [binMatches, hs, h]⟩
      · by_cases hv : val < t
        · exact ⟨⟨start, t, 0⟩, List.mem_cons_self _ _, by simp [binMatches, hs, h, hv]⟩
        · obtain ⟨b, hb, hm⟩ := ih t val (by omega)
          exact ⟨b, List.mem_cons_of_mem _ hb, hm⟩

theorem binMatches_of_bounds {b b0 : Data} (h : b.bounds = b0.bounds) (val : Int) :
    binMatches b val = binMatches b0 val := by
  simp only [Data.bounds, Prod.mk.injEq] at h
  simp [binMatches, h.1, h.2]

theorem exists_match_of_bounds {bins bins0 : List Data}
    (h : bins.map Data.bounds = bins0.map Data.bounds) (val : Int)
    (hex : ∃ b ∈ bins0, binMatches b val = true) :
    ∃ b ∈ bins, binMatches b val = true := by
  obtain ⟨b0, hb0, hm⟩ := hex
  have hmem : b0.bounds ∈ bins.map Data.bounds := by
    rw [h]
    exact List.mem_map_of_mem _ hb0
  obtain ⟨b, hb, hbb⟩ := List.mem_map.mp hmem
  exact ⟨b, hb, by rw [binMatches_of_bounds hbb val, hm]⟩

/-- C12, failing instances: on the bins of `Create [100]` the token `"-5"`
parses, its scaled value -5 matches no bin, and the call returns the bins
unchanged with a `nil` error. And a token that is matched need not change a
`Size`: with `numCalls = 2^62` and four ranks the weight `numCalls * nRanks`
wraps to 0 and the bins come back unchanged as well. -/
theorem GetFromCounts_drops_negative_value :
    List.Pairwise (· < ·) [(100 : Int)] ∧
    Create [100] = some [⟨0, 100, 0⟩, ⟨100, -1, 0⟩] ∧
    Atoi "-5".toList = .ok (-5) ∧
    (∀ b ∈ [(⟨0, 100, 0⟩ : Data), ⟨100, -1, 0⟩], binMatches b (wrap64 (-5 * 1)) = false) ∧
    GetFromCounts decodeRanks ["Rank(s) 0-3: -5".toList] [⟨0, 100, 0⟩, ⟨100, -1, 0⟩] 1 1 =
      .ret [⟨0, 100, 0⟩, ⟨100, -1, 0⟩] none ∧
    (4611686018427387904 : Int) ≠ 0 ∧
    binMatches ⟨0, 100, 0⟩ (wrap64 (50 * 1)) = true ∧
    GetFromCounts decodeRanks ["Rank(s) 0-3: 50".toList] [⟨0, 100, 0⟩, ⟨100, -1, 0⟩]
      4611686018427387904 1 = .ret [⟨0, 100, 0⟩, ⟨100, -1, 0⟩] none := by
  refine ⟨by decide, by decide, rfl, by decide, by decide, by decide, by decide, by decide⟩

/-- C12, amended: on the bins of `Create` for a non-empty threshold list
(strictly increasing or not), a count token that parses to `v` and whose
scaled value `v * datatypeSize`, in the arithmetic of `int`, is non-negative
matches some bin. On every bin list with the bounds of these bins (the sizes
being whatever the call has made them) the token loop goes on after the token
with exactly one bin changed, the lowest-indexed bin that matches, whose
`Size` has become `Size + numCalls * nRanks` in the arithmetic of `int`; when
`numCalls > 0`, there is at least one rank, and neither the weight nor the sum
leaves the range of `int`, that `Size` has grown. -/
theorem Create_matches_nonneg (T : List Int) (hT : T ≠ []) (numCalls : Int) (nRanks : Nat)
    (datatypeSize : Int) (tok : Str) (v : Int) (rest : List Str)
    (htok : Atoi tok = .ok v) (hval : 0 ≤ wrap64 (v * datatypeSize)) :
    ∃ bins0, Create T = some bins0 ∧
      (∃ b ∈ bins0, binMatches b (wrap64 (v * datatypeSize)) = true) ∧
      ∀ bins : List Data, bins.map Data.bounds = bins0.map Data.bounds →
        ∃ (i : Nat) (b : Data), bins[i]? = some b ∧
          binMatches b (wrap64 (v * datatypeSize)) = true ∧
          (∀ (j : Nat) (b0 : Data), j < i → bins[j]? = some b0 →
            binMatches b0 (wrap64 (v * datatypeSize)) = false) ∧
          countLoop numCalls nRanks datatypeSize (tok :: rest) bins =
            countLoop numCalls nRanks datatypeSize rest
              (bins.set i
                { b with Size := wrap64 (b.Size + wrap64 (numCalls * (nRanks : Int))) }) ∧
          (0 < numCalls → 1 ≤ nRanks → inInt64 (numCalls * (nRanks : Int)) →
            inInt64 (b.Size + numCalls * (nRanks : Int)) →
            wrap64 (b.Size + wrap64 (numCalls * (nRanks : Int))) =
              b.Size + numCalls * (nRanks : Int) ∧
            b.Size < wrap64 (b.Size + wrap64 (numCalls * (nRanks : Int)))) := by
  have hex := exists_match_mkBins T 0 (wrap64 (v * datatypeSize)) hval
  refine ⟨_, Create_eq_mkBins T hT, hex, ?_⟩
  intro bins hb
  obtain ⟨i, b, hi, hm, hfirst, heq⟩ :=
    binLoop_first_match (wrap64 (v * datatypeSize)) (wrap64 (numCalls * (nRanks : Int))) bins
      (exists_match_of_bounds hb _ hex)
  refine ⟨i, b, hi, hm, hfirst, ?_, ?_⟩
  · have hne : tok ≠ [] := by
      intro h
      subst h
      simp [Atoi] at htok
    simp only [countLoop, if_neg hne, htok, heq]
  · intro hc hr h1 h2
    have hpos : 0 < numCalls * (nRanks : Int) := mul_pos hc (by omega)
    rw [wrap64_of_inInt64 h1, wrap64_of_inInt64 h2]
    exact ⟨rfl, by omega⟩

theorem Create_matches_nonneg_witness :
    ∃ bins0, Create [100, 1000] = some bins0 ∧
      (∃ b ∈ bins0, binMatches b (wrap64 (150 * 8)) = true) ∧
      ∀ bins : List Data, bins.map Data.bounds = bins0.map Data.bounds →
        ∃ (i : Nat) (b : Data), bins[i]? = some b ∧
          binMatches b (wrap64 (150 * 8)) = true ∧
          (∀ (j : Nat) (b0 : Data), j < i → bins[j]? = some b0 →
            binMatches b0 (wrap64 (150 * 8)) = false) ∧
          countLoop 2 4 8 ("150".toList :: ["7".toList]) bins =
            countLoop 2 4 8 ["7".toList]
              (bins.set i { b with Size := wrap64 (b.Size + wrap64 (2 * ((4 : Nat) : Int))) }) ∧
          (0 < (2 : Int) → 1 ≤ 4 → inInt64 (2 * ((4 : Nat) : Int)) →
            inInt64 (b.Size + 2 * ((4 : Nat) : Int)) →
            wrap64 (b.Size + wrap64 (2 * ((4 : Nat) : Int))) = b.Size + 2 * ((4 : Nat) : Int) ∧
            b.Size < wrap64 (b.Size + wrap64 (2 * ((4 : Nat) : Int)))) :=
  Create_matches_nonneg [100, 1000] (by decide) 2 4 8 "150".toList 150 ["7".toList] rfl
    (by decide)

/-! ## Panic, first match, and the descriptor handed to the decoder -/

/-- C13: evaluation at the failing input. The record `"Rank(s) 0-3"` holds no
delimiter, `strings.Split` yields a single piece, and `tokens[1]` panics:
the call does not return an error value. -/
theorem GetFromCounts_panics_without_delimiter :
    Split "Rank(s) 0-3".toList ": ".toList = ["Rank(s) 0-3".toList] ∧
    GetFromCounts decodeRanks ["Rank(s) 0-3".toList]
      [⟨0, 100, 0⟩, ⟨100, 1000, 0⟩, ⟨1000, -1, 0⟩] 1 1 = .panic ∧
    ¬ ∃ bins err, GetFromCounts decodeRanks ["Rank(s) 0-3".toList]
      [⟨0, 100, 0⟩, ⟨100, 1000, 0⟩, ⟨1000, -1, 0⟩] 1 1 = .ret bins err := by
  have h : GetFromCounts decodeRanks ["Rank(s) 0-3".toList]
      [⟨0, 100, 0⟩, ⟨100, 1000, 0⟩, ⟨1000, -1, 0⟩] 1 1 = .panic := by decide
  refine ⟨by decide, h, ?_⟩
  rintro ⟨bins, err, hb⟩
  rw [h] at hb
  cases hb

/-- C15: evaluation at the failing input. The record is
`"Rank(s) " ++ " 0-3" ++ ": " ++ "50"`, its descriptor `" 0-3"` holds no
`": "`, yet the decoder is handed `"0-3"`: `strings.TrimLeft` removes every
leading character that occurs in `"Rank(s) "`, not the prefix `"Rank(s) "`.
With the sample decoder the call then succeeds on four ranks although the
descriptor `" 0-3"` itself does not decode. -/
theorem GetFromCounts_trims_cutset :
    "Rank(s)  0-3: 50".toList = "Rank(s) ".toList ++ " 0-3".toList ++ ": ".toList ++ "50".toList ∧
    GetFromCounts echoDecode ["Rank(s)  0-3: 50".toList] [⟨0, 100, 0⟩, ⟨100, -1, 0⟩] 1 1 =
      .ret [⟨0, 100, 0⟩, ⟨100, -1, 0⟩] (some (.decodeErr "0-3".toList)) ∧
    "0-3".toList ≠ " 0-3".toList ∧
    decodeRanks " 0-3".toList = .error (.atoiSyntax " 0".toList) ∧
    GetFromCounts decodeRanks ["Rank(s)  0-3: 50".toList] [⟨0, 100, 0⟩, ⟨100, -1, 0⟩] 1 1 =
      .ret [⟨0, 100, 4⟩, ⟨100, -1, 0⟩] none ∧
    GetFromCounts echoDecode ["Rank(s) sank(0): 50".toList] [⟨0, 100, 0⟩, ⟨100, -1, 0⟩] 1 1 =
      .ret [⟨0, 100, 0⟩, ⟨100, -1, 0⟩] (some (.decodeErr "0)".toList)) := by
  refine ⟨by decide, by decide, by decide, rfl, by decide, by decide⟩

/-! ## Spaces and newlines in a record -/

theorem delim_toList : ": ".toList = [':', ' '] := rfl

theorem isPrefixOf_delim (c : Char) (cs : Str) :
    List.isPrefixOf ": ".toList (c :: cs) = decide (c = ':' ∧ cs.head? = some ' ') := by
  rw [delim_toList]
  cases cs with
  | nil =>
      by_cases hc : c = ':'
      · subst hc; simp [List.isPrefixOf]
      · simp [List.isPrefixOf, hc, Ne.symm hc]
  | cons d ds =>
      by_cases hc : c = ':'
      · subst hc
        by_cases hd : d = ' '
        · subst hd; simp [List.isPrefixOf]
        · simp [List.isPrefixOf, hd, Ne.symm hd]
      · simp [List.isPrefixOf, hc, Ne.symm hc]

theorem splitGo_cut :
    ∀ (s cur : Str), splitGo ": ".toList 0 s cur =
      match cutDelim s with
      | none => [cur.reverse ++ s]
      | some (a, b) => (cur.reverse ++ a) :: splitGo ": ".toList 0 b [] := by
  intro s
  induction s with
  | nil => intro cur; simp [splitGo, cutDelim]
  | cons c cs ih =>
      intro cur
      rw [splitGo_zero_cons, isPrefixOf_delim]
      by_cases h : c = ':' ∧ cs.head? = some ' '
      · obtain ⟨hc, hd⟩ := h
        cases cs with
        | nil => simp at hd
        | cons d ds =>
            simp only [List.head?_cons, Option.some.injEq] at hd
            subst hc hd
            simp [cutDelim, splitGo]
      · simp only [h, decide_False, Bool.false_eq_true, if_false]
        rw [ih (c :: cur)]
        simp only [cutDelim, h, if_false]
        cases cutDelim cs with
        | none => simp
        | some p => simp

theorem Split_head_firstPiece (X : Str) :
    ∃ more, Split X ": ".toList = firstPiece X :: more := by
  have h := splitGo_cut X []
  unfold firstPiece
  cases hc : cutDelim X with
  | none =>
      rw [hc] at h
      exact ⟨[], by simpa [Split] using h⟩
  | some p =>
      rw [hc] at h
      exact ⟨_, by simpa [Split] using h⟩

theorem recordParts_cut (c : Str) :
    recordParts c =
      match cutDelim c with
      | none => none
      | some (H, X) => some (TrimLeft H "Rank(s) ".toList, tokensOf (firstPiece X)) := by
  have h := splitGo_cut c []
  unfold recordParts
  cases hc : cutDelim c with
  | none =>
      rw [hc] at h
      have hs : Split c ": ".toList = [c] := by simpa [Split] using h
      rw [hs]
  | some p =>
      obtain ⟨H, X⟩ := p
      rw [hc] at h
      obtain ⟨more, hmore⟩ := Split_head_firstPiece X
      have hs : Split c ": ".toList = H :: firstPiece X :: more := by
        have : Split c ": ".toList = H :: Split X ": ".toList := by simpa [Split] using h
        rw [this, hmore]
      rw [hs]
      rfl

theorem cutDelim_append_some :
    ∀ (s r a b : Str), cutDelim s = some (a, b) → cutDelim (s ++ r) = some (a, b ++ r) := by
  intro s
  induction s with
  | nil => intro r a b h; simp [cutDelim] at h
  | cons c cs ih =>
      intro r a b h
      by_cases hd : c = ':' ∧ cs.head? = some ' '
      · obtain ⟨hc, hh⟩ := hd
        cases cs with
        | nil => simp at hh
        | cons d ds =>
            simp only [List.head?_cons, Option.some.injEq] at hh
            subst hc hh
            simp only [cutDelim, List.head?_cons, and_self, if_true, List.tail_cons,
              Option.some.injEq, Prod.mk.injEq] at h
            obtain ⟨h1, h2⟩ := h
            subst h1 h2
            simp [cutDelim]
      · simp only [cutDelim, hd, if_false] at h
        cases hcs : cutDelim cs with
        | none => rw [hcs] at h; simp at h
        | some p =>
            obtain ⟨a0, b0⟩ := p
            rw [hcs] at h
            simp only [Option.map_some', Option.some.injEq, Prod.mk.injEq] at h
            obtain ⟨h1, h2⟩ := h
            subst h1 h2
            have hd' : ¬ (c = ':' ∧ (cs ++ r).head? = some ' ') := by
              intro hcon
              apply hd
              refine ⟨hcon.1, ?_⟩
              cases cs with
              | nil => simp [cutDelim] at hcs
              | cons d ds => simpa using hcon.2
            rw [List.cons_append]
            simp only [cutDelim, hd', if_false, ih r a0 b0 hcs, Option.map_some']

theorem cutDelim_append_none :
    ∀ (s r : Str), cutDelim s = none → ¬ (s.getLast? = some ':' ∧ r.head? = some ' ') →
      cutDelim (s ++ r) = (cutDelim r).map fun p => (s ++ p.1, p.2) := by
  intro s
  induction s with
  | nil =>
      intro r _ _
      rw [List.nil_append]
      cases cutDelim r <;> simp
  | cons c cs ih =>
      intro r h hno
      by_cases hd : c = ':' ∧ cs.head? = some ' '
      · simp [cutDelim, hd] at h
      · simp only [cutDelim, hd, if_false, Option.map_eq_none'] at h
        have hd' : ¬ (c = ':' ∧ (cs ++ r).head? = some ' ') := by
          intro hcon
          cases cs with
          | nil =>
              apply hno
              exact ⟨by simp [hcon.1], by simpa using hcon.2⟩
          | cons d ds =>
              apply hd
              exact ⟨hcon.1, by simpa using hcon.2⟩
        have hno' : ¬ (cs.getLast? = some ':' ∧ r.head? = some ' ') := by
          intro hcon
          apply hno
          refine ⟨?_, hcon.2⟩
          cases cs with
          | nil => simp at hcon
          | cons d ds => rw [List.getLast?_cons_cons]; exact hcon.1
        rw [List.cons_append]
        simp only [cutDelim, hd', if_false, ih r h hno']
        cases cutDelim r <;> simp

theorem cutDelim_none_of_no_colon : ∀ s : Str, ':' ∉ s → cutDelim s = none := by
  intro s
  induction s with
  | nil => intro _; rfl
  | cons c cs ih =>
      intro h
      have hc : c ≠ ':' := fun hc => h (hc ▸ List.mem_cons_self _ _)
      have hcs : ':' ∉ cs := fun hm => h (List.mem_cons_of_mem _ hm)
      simp [cutDelim, hc, ih hcs]

theorem firstPiece_append_some (s X a b : Str) (h : cutDelim s = some (a, b)) :
    firstPiece (s ++ X) = a := by
  unfold firstPiece
  rw [cutDelim_append_some s X a b h]

theorem firstPiece_append_none (s X : Str) (h : cutDelim s = none)
    (hno : ¬ (s.getLast? = some ':' ∧ X.head? = some ' ')) :
    firstPiece (s ++ X) = s ++ firstPiece X := by
  unfold firstPiece
  rw [cutDelim_append_none s X h hno]
  cases cutDelim X with
  | none => rfl
  | some p => rfl

theorem firstPiece_append_no_colon (s X : Str) (h : ':' ∉ s) :
    firstPiece (s ++ X) = s ++ firstPiece X := by
  apply firstPiece_append_none s X (cutDelim_none_of_no_colon s h)
  rintro ⟨hl, _⟩
  exact h (List.mem_of_getLast?_eq_some hl)

theorem firstPiece_append_last (Z : Str) (x : Char) (X : Str) (hx : x ≠ ':')
    (h : cutDelim (Z ++ [x]) = none) :
    firstPiece ((Z ++ [x]) ++ X) = (Z ++ [x]) ++ firstPiece X := by
  apply firstPiece_append_none _ X h
  rintro ⟨hl, _⟩
  rw [List.getLast?_append_of_ne_nil _ (by simp)] at hl
  simp only [List.getLast?_singleton, Option.some.injEq] at hl
  exact hx hl

theorem recordParts_delim_congr (H W W' : Str)
    (h : tokensOf (firstPiece W) = tokensOf (firstPiece W')) :
    recordParts (H ++ ": ".toList ++ W) = recordParts (H ++ ": ".toList ++ W') := by
  have hform : ∀ Y : Str, H ++ ": ".toList ++ Y = H ++ (':' :: ' ' :: Y) := by
    intro Y
    rw [delim_toList]
    simp
  have hcut : ∀ Y : Str, cutDelim (':' :: ' ' :: Y) = some ([], Y) := by
    intro Y
    simp [cutDelim]
  rw [hform, hform, recordParts_cut, recordParts_cut]
  cases hH : cutDelim H with
  | some p =>
      obtain ⟨a, b⟩ := p
      rw [cutDelim_append_some H _ a b hH, cutDelim_append_some H _ a b hH]
      simp only
      have hind : firstPiece (b ++ ':' :: ' ' :: W) = firstPiece (b ++ ':' :: ' ' :: W') := by
        cases hb : cutDelim b with
        | some q =>
            obtain ⟨a2, b2⟩ := q
            rw [firstPiece_append_some b _ a2 b2 hb, firstPiece_append_some b _ a2 b2 hb]
        | none =>
            have hno : ∀ Y : Str,
                ¬ (b.getLast? = some ':' ∧ (':' :: ' ' :: Y).head? = some ' ') := by
              intro Y hcon
              simp at hcon
            unfold firstPiece
            rw [cutDelim_append_none b _ hb (hno W), cutDelim_append_none b _ hb (hno W'),
              hcut, hcut]
            rfl
      rw [hind]
  | none =>
      have hno : ∀ Y : Str,
          ¬ (H.getLast? = some ':' ∧ (':' :: ' ' :: Y).head? = some ' ') := by
        intro Y hcon
        simp at hcon
      rw [cutDelim_append_none H _ hH (hno W), cutDelim_append_none H _ hH (hno W'),
        hcut, hcut]
      simp only [Option.map_some']
      rw [h]

/-! ### `strings.TrimRight` on newlines -/

theorem dropWhile_append_stop {α : Type} (P : α → Bool) (x : α) (hx : P x = false) :
    ∀ l1 l2 : List α, (l1 ++ x :: l2).dropWhile P = l1.dropWhile P ++ x :: l2 := by
  intro l1
  induction l1 with
  | nil => intro l2; simp [List.dropWhile, hx]
  | cons a l ih =>
      intro l2
      by_cases ha : P a = true
      · simp [List.dropWhile, ha, ih]
      · simp [List.dropWhile, ha]

theorem dropWhile_append_all {α : Type} (P : α → Bool) :
    ∀ l1 l2 : List α, (∀ a ∈ l1, P a = true) → (l1 ++ l2).dropWhile P = l2.dropWhile P := by
  intro l1
  induction l1 with
  | nil => intro l2 _; rfl
  | cons a l ih =>
      intro l2 h
      have ha := h a (List.mem_cons_self _ _)
      simp [List.dropWhile, ha, ih l2 (fun b hb => h b (List.mem_cons_of_mem _ hb))]

theorem newline_contains (c : Char) : "\n".toList.contains c = decide (c = '\n') := by
  have h : "\n".toList = ['\n'] := rfl
  rw [h]
  by_cases hc : c = '\n' <;> simp [hc]

theorem TrimRight_keep (u : Str) (x : Char) (p : Str) (hx : x ≠ '\n') :
    TrimRight (u ++ x :: p) "\n".toList = u ++ x :: TrimRight p "\n".toList := by
  unfold TrimRight
  have hrev : (u ++ x :: p).reverse = p.reverse ++ x :: u.reverse := by simp
  rw [hrev, dropWhile_append_stop _ x (by rw [newline_contains]; simpa using hx)]
  simp

theorem TrimRight_newlines (u NL : Str) (h : ∀ c ∈ NL, c = '\n') :
    TrimRight (u ++ NL) "\n".toList = TrimRight u "\n".toList := by
  unfold TrimRight
  rw [List.reverse_append, dropWhile_append_all]
  intro a ha
  rw [newline_contains]
  simpa using h a (List.mem_reverse.mp ha)

/-! ### `strings.Split` on spaces -/

theorem space_toList : " ".toList = [' '] := rfl

theorem splitGo_space (s cur : Str) :
    splitGo [' '] 0 (' ' :: s) cur = cur.reverse :: splitGo [' '] 0 s [] := by
  rw [splitGo_zero_cons]
  simp [List.isPrefixOf]

theorem splitGo_not_space (c : Char) (s cur : Str) (hc : c ≠ ' ') :
    splitGo [' '] 0 (c :: s) cur = splitGo [' '] 0 s (c :: cur) := by
  rw [splitGo_zero_cons]
  simp [List.isPrefixOf, Ne.symm hc]

theorem words_double_space :
    ∀ (Z cur q : Str),
      (splitGo [' '] 0 (Z ++ ' ' :: ' ' :: q) cur).filter (fun t => t ≠ []) =
        (splitGo [' '] 0 (Z ++ ' ' :: q) cur).filter (fun t => t ≠ []) := by
  intro Z
  induction Z with
  | nil =>
      intro cur q
      simp only [List.nil_append]
      rw [splitGo_space, splitGo_space, splitGo_space]
      simp [List.filter_cons]
  | cons c Z ih =>
      intro cur q
      by_cases hc : c = ' '
      · subst hc
        rw [List.cons_append, List.cons_append, splitGo_space, splitGo_space]
        simp only [List.filter_cons]
        rw [ih [] q]
      · rw [List.cons_append, List.cons_append, splitGo_not_space c _ _ hc,
          splitGo_not_space c _ _ hc, ih (c :: cur) q]

theorem words_trailing_space :
    ∀ (Y cur : Str),
      (splitGo [' '] 0 (Y ++ [' ']) cur).filter (fun t => t ≠ []) =
        (splitGo [' '] 0 Y cur).filter (fun t => t ≠ []) := by
  intro Y
  induction Y with
  | nil =>
      intro cur
      simp only [List.nil_append]
      rw [splitGo_space]
      simp [splitGo, List.filter_cons]
  | cons c Y ih =>
      intro cur
      by_cases hc : c = ' '
      · subst hc
        rw [List.cons_append, splitGo_space, splitGo_space]
        simp only [List.filter_cons]
        rw [ih []]
      · rw [List.cons_append, splitGo_not_space c _ _ hc, splitGo_not_space c _ _ hc,
          ih (c :: cur)]

theorem tokensOf_eq (p : Str) :
    tokensOf p = (splitGo [' '] 0 (TrimRight p "\n".toList) []).filter (fun t => t ≠ []) := by
  unfold tokensOf Split
  rw [space_toList]

theorem tokensOf_leading (n : Nat) (y : Str) :
    tokensOf (List.replicate n ' ' ++ y) = tokensOf y := by
  induction n with
  | zero => simp
  | succ n ih =>
      rw [List.replicate_succ, List.cons_append, ← ih, tokensOf_eq, tokensOf_eq]
      have h := TrimRight_keep [] ' ' (List.replicate n ' ' ++ y) (by decide)
      simp only [List.nil_append] at h
      rw [h, splitGo_space]
      simp [List.filter_cons]

theorem tokensOf_gap (Z : Str) (n : Nat) (q : Str) :
    tokensOf (Z ++ ' ' :: (List.replicate n ' ' ++ q)) = tokensOf (Z ++ ' ' :: q) := by
  induction n with
  | zero => simp
  | succ n ih =>
      rw [← ih, List.replicate_succ, List.cons_append, tokensOf_eq, tokensOf_eq]
      have h1 := TrimRight_keep (Z ++ [' ']) ' ' (List.replicate n ' ' ++ q) (by decide)
      have h2 := TrimRight_keep Z ' ' (List.replicate n ' ' ++ q) (by decide)
      simp only [List.append_assoc, List.singleton_append] at h1
      rw [h1, h2, words_double_space]

theorem tokensOf_trailing (n : Nat) :
    ∀ (Z : Str) (x : Char) (NL : Str), x ≠ '\n' → (∀ c ∈ NL, c = '\n') →
      tokensOf (Z ++ x :: (List.replicate n ' ' ++ NL)) = tokensOf (Z ++ x :: NL) := by
  induction n with
  | zero => intro Z x NL _ _; simp
  | succ n ih =>
      intro Z x NL hx hNL
      have hstep : Z ++ x :: (List.replicate (n + 1) ' ' ++ NL) =
          (Z ++ [x]) ++ ' ' :: (List.replicate n ' ' ++ NL) := by
        simp [List.replicate_succ]
      rw [hstep, ih (Z ++ [x]) ' ' NL (by decide) hNL, tokensOf_eq, tokensOf_eq]
      have hnl : TrimRight NL "\n".toList = [] := by
        have := TrimRight_newlines [] NL hNL
        simpa [TrimRight] using this
      rw [TrimRight_keep (Z ++ [x]) ' ' NL (by decide), TrimRight_keep Z x NL hx, hnl]
      have := words_trailing_space (Z ++ [x]) []
      simpa using this

theorem tokensOf_newlines (X NL : Str) (h : ∀ c ∈ NL, c = '\n') :
    tokensOf (X ++ NL) = tokensOf X := by
  unfold tokensOf
  rw [TrimRight_newlines X NL h]

theorem firstPiece_tail (tail : Str) (h : tail = [] ∨ ∃ R, tail = ':' :: ' ' :: R) :
    firstPiece tail = [] := by
  rcases h with rfl | ⟨R, rfl⟩
  · rfl
  · simp [firstPiece, cutDelim]

theorem no_colon_of_newlines (NL : Str) (h : ∀ c ∈ NL, c = '\n') : ':' ∉ NL := by
  intro hm
  exact absurd (h _ hm) (by decide)

theorem no_colon_replicate_space (n : Nat) : ':' ∉ List.replicate n ' ' := by
  intro hm
  exact absurd (List.eq_of_mem_replicate hm) (by decide)

theorem recordParts_newlines (c : Str) (m : Nat) :
    recordParts (c ++ List.replicate m '\n') = recordParts c := by
  have hNL : ∀ x ∈ List.replicate m '\n', x = '\n' := fun x hx => List.eq_of_mem_replicate hx
  have hhead : ∀ s : Str,
      ¬ (s.getLast? = some ':' ∧ (List.replicate m '\n').head? = some ' ') := by
    rintro s ⟨_, hh⟩
    cases m with
    | zero => simp at hh
    | succ k =>
        simp only [List.replicate_succ, List.head?_cons, Option.some.injEq] at hh
        exact absurd hh (by decide)
  have hnone : cutDelim (List.replicate m '\n') = none :=
    cutDelim_none_of_no_colon _ (no_colon_of_newlines _ hNL)
  rw [recordParts_cut, recordParts_cut]
  cases hc : cutDelim c with
  | none =>
      rw [cutDelim_append_none c _ hc (hhead c), hnone]
      rfl
  | some p =>
      obtain ⟨H, X⟩ := p
      rw [cutDelim_append_some c _ H X hc]
      simp only
      cases hX : cutDelim X with
      | some q =>
          obtain ⟨a, b⟩ := q
          rw [firstPiece_append_some X _ a b hX]
          have : firstPiece X = a := by simp [firstPiece, hX]
          rw [this]
      | none =>
          rw [firstPiece_append_none X _ hX (hhead X)]
          have h1 : firstPiece (List.replicate m '\n') = List.replicate m '\n' := by
            simp [firstPiece, hnone]
          have h2 : firstPiece X = X := by simp [firstPiece, hX]
          rw [h1, h2, tokensOf_newlines X _ hNL]

theorem recordParts_SpacingEdit {r r' : Str} (h : SpacingEdit r r') :
    recordParts r' = recordParts r := by
  cases h with
  | leading H B n =>
      apply recordParts_delim_congr
      rw [firstPiece_append_no_colon _ B (no_colon_replicate_space n), tokensOf_leading]
  | gap H Z B n =>
      apply recordParts_delim_congr
      have hl : Z ++ ' ' :: (List.replicate n ' ' ++ B) =
          (Z ++ [' ']) ++ (List.replicate n ' ' ++ B) := by simp
      have hr : Z ++ ' ' :: B = (Z ++ [' ']) ++ B := by simp
      rw [hl, hr]
      cases hZ : cutDelim (Z ++ [' ']) with
      | some p =>
          obtain ⟨a, b⟩ := p
          rw [firstPiece_append_some _ _ a b hZ, firstPiece_append_some _ _ a b hZ]
      | none =>
          rw [firstPiece_append_last Z ' ' _ (by decide) hZ,
            firstPiece_append_last Z ' ' _ (by decide) hZ,
            firstPiece_append_no_colon _ B (no_colon_replicate_space n)]
          have := tokensOf_gap Z n (firstPiece B)
          simpa using this
  | trailing H Z x NL tail n hcolon hnl hNL htail =>
      apply recordParts_delim_congr
      have hl : Z ++ x :: (List.replicate n ' ' ++ (NL ++ tail)) =
          (Z ++ [x]) ++ (List.replicate n ' ' ++ (NL ++ tail)) := by simp
      have hr : Z ++ x :: (NL ++ tail) = (Z ++ [x]) ++ (NL ++ tail) := by simp
      rw [hl, hr]
      cases hZ : cutDelim (Z ++ [x]) with
      | some p =>
          obtain ⟨a, b⟩ := p
          rw [firstPiece_append_some _ _ a b hZ, firstPiece_append_some _ _ a b hZ]
      | none =>
          rw [firstPiece_append_last Z x _ hcolon hZ, firstPiece_append_last Z x _ hcolon hZ,
            firstPiece_append_no_colon _ _ (no_colon_replicate_space n),
            firstPiece_append_no_colon _ tail (no_colon_of_newlines NL hNL),
            firstPiece_tail tail htail]
          have := tokensOf_trailing n Z x NL hnl hNL
          simpa using this
  | newlines _ m => exact recordParts_newlines _ m

theorem recordLoop_congr_parts (decode : Str → Except GoError (List Int))
    (numCalls datatypeSize : Int) (r r' : Str) (post : List Str)
    (h : recordParts r' = recordParts r) :
    ∀ (pre : List Str) (bins : List Data),
      recordLoop decode numCalls datatypeSize (pre ++ r' :: post) bins =
        recordLoop decode numCalls datatypeSize (pre ++ r :: post) bins := by
  intro pre
  induction pre with
  | nil =>
      intro bins
      simp only [List.nil_append]
      cases hp : recordParts r with
      | none =>
          rw [recordLoop_no_delimiter decode numCalls datatypeSize r post bins hp,
            recordLoop_no_delimiter decode numCalls datatypeSize r' post bins (h.trans hp)]
      | some p =>
          obtain ⟨descr, toks⟩ := p
          rw [recordLoop_of_parts decode numCalls datatypeSize r post bins descr toks hp,
            recordLoop_of_parts decode numCalls datatypeSize r' post bins descr toks
              (h.trans hp)]
  | cons c pre ih =>
      intro bins
      simp only [List.cons_append]
      cases hp : recordParts c with
      | none =>
          rw [recordLoop_no_delimiter decode numCalls datatypeSize c _ bins hp,
            recordLoop_no_delimiter decode numCalls datatypeSize c _ bins hp]
      | some p =>
          obtain ⟨descr, toks⟩ := p
          rw [recordLoop_of_parts decode numCalls datatypeSize c _ bins descr toks hp,
            recordLoop_of_parts decode numCalls datatypeSize c _ bins descr toks hp]
          simp only [ih]

/-- C16, failing instance: the counts text `"5:"` of the record
`"Rank(s) 0: 5:"` ends with a colon; with one trailing space added the text
holds a second delimiter, the counts text becomes `"5"`, and the call that
returned an error now counts the value 5 and returns `nil`. -/
theorem GetFromCounts_trailing_space_after_colon :
    "Rank(s) 0: 5: ".toList = "Rank(s) 0: 5:".toList ++ " ".toList ∧
    GetFromCounts decodeRanks ["Rank(s) 0: 5:".toList] [⟨0, 100, 0⟩, ⟨100, -1, 0⟩] 1 1 =
      .ret [⟨0, 100, 0⟩, ⟨100, -1, 0⟩] (some (.atoiSyntax "5:".toList)) ∧
    GetFromCounts decodeRanks ["Rank(s) 0: 5: ".toList] [⟨0, 100, 0⟩, ⟨100, -1, 0⟩] 1 1 =
      .ret [⟨0, 100, 1⟩, ⟨100, -1, 0⟩] none := by
  refine ⟨by decide, by decide, by decide⟩

/-- C16, amended: the outcome of `GetFromCounts` (bin list and error, or
panic) does not change when, in any one record, spaces are added right after
a delimiter `": "` (leading spaces of the counts text), a space after the
delimiter is followed by more spaces (a wider gap between count tokens),
spaces are added at the end of a counts text whose last character is neither
`':'` nor a newline (before its trailing newlines), or newlines are appended
to the record. -/
theorem GetFromCounts_spacing (decode : Str → Except GoError (List Int))
    (pre post : List Str) (r r' : Str) (bins : List Data) (numCalls datatypeSize : Int)
    (h : SpacingEdit r r') :
    GetFromCounts decode (pre ++ r' :: post) bins numCalls datatypeSize =
      GetFromCounts decode (pre ++ r :: post) bins numCalls datatypeSize := by
  unfold GetFromCounts
  rw [recordLoop_congr_parts decode numCalls datatypeSize r r' post
    (recordParts_SpacingEdit h) pre bins]

theorem GetFromCounts_spacing_witness :
    GetFromCounts decodeRanks
      ["Rank(s) 7: 2000".toList, "Rank(s) 0-3: 50   150\n".toList, "Rank(s) 8: 1".toList]
      [⟨0, 100, 0⟩, ⟨100, -1, 0⟩] 1 1 =
    GetFromCounts decodeRanks
      ["Rank(s) 7: 2000".toList, "Rank(s) 0-3: 50 150\n".toList, "Rank(s) 8: 1".toList]
      [⟨0, 100, 0⟩, ⟨100, -1, 0⟩] 1 1 :=
  GetFromCounts_spacing decodeRanks ["Rank(s) 7: 2000".toList] ["Rank(s) 8: 1".toList]
    "Rank(s) 0-3: 50 150\n".toList "Rank(s) 0-3: 50   150\n".toList
    [⟨0, 100, 0⟩, ⟨100, -1, 0⟩] 1 1
    (SpacingEdit.gap "Rank(s) 0-3".toList "50".toList "150\n".toList 2)

/-! ## Records one after the other, and what a call leaves untouched -/

theorem recordLoop_append (decode : Str → Except GoError (List Int))
    (numCalls datatypeSize : Int) (B : List Str) :
    ∀ (A : List Str) (bins bins' : List Data),
      recordLoop decode numCalls datatypeSize A bins = .ret bins' none →
      recordLoop decode numCalls datatypeSize (A ++ B) bins =
        recordLoop decode numCalls datatypeSize B bins' := by
  intro A
  induction A with
  | nil =>
      intro bins bins' h
      simp only [recordLoop, Outcome.ret.injEq, and_true] at h
      subst h
      rfl
  | cons c rest ih =>
      intro bins bins' h
      cases hparts : recordParts c with
      | none =>
          rw [recordLoop_no_delimiter decode numCalls datatypeSize c rest bins hparts] at h
          cases h
      | some p =>
          obtain ⟨descr, toks⟩ := p
          rw [recordLoop_of_parts decode numCalls datatypeSize c rest bins descr toks hparts] at h
          rw [List.cons_append,
            recordLoop_of_parts decode numCalls datatypeSize c (rest ++ B) bins descr toks hparts]
          cases hdec : decode descr with
          | error e =>
              rw [hdec] at h
              simp at h
          | ok listRanks =>
              rw [hdec] at h
              simp only at h ⊢
              by_cases hz : listRanks.length = 0
              · rw [if_pos hz] at h
                simp at h
              · rw [if_neg hz] at h
                rw [if_neg hz]
                cases hcl : countLoop numCalls listRanks.length datatypeSize toks bins with
                | mk bins1 err1 =>
                    rw [hcl] at h
                    cases err1 with
                    | some e => simp at h
                    | none =>
                        simp only at h ⊢
                        exact ih bins1 bins' h

/-- C17: if `GetFromCounts` on the records `A` succeeds with the bins `bins'`,
then on `A ++ B` it gives the outcome (bin list and error, or panic) that it
gives on `B` started from `bins'`. -/
theorem GetFromCounts_append (decode : Str → Except GoError (List Int)) (A B : List Str)
    (bins bins' : List Data) (numCalls datatypeSize : Int)
    (h : GetFromCounts decode A bins numCalls datatypeSize = .ret bins' none) :
    GetFromCounts decode (A ++ B) bins numCalls datatypeSize =
      GetFromCounts decode B bins' numCalls datatypeSize := by
  unfold GetFromCounts at h ⊢
  by_cases hc : numCalls = 0
  · rw [if_pos hc] at h
    simp at h
  · rw [if_neg hc] at h
    rw [if_neg hc, if_neg hc]
    by_cases hd : datatypeSize = 0
    · rw [if_pos hd] at h
      simp at h
    · rw [if_neg hd] at h
      rw [if_neg hd, if_neg hd]
      exact recordLoop_append decode numCalls datatypeSize B A bins bins' h

theorem GetFromCounts_append_witness :
    GetFromCounts decodeRanks
      (["Rank(s) 0-3: 50 150".toList] ++ ["Rank(s) 7: 2000".toList, "Rank(s) 8: x".toList])
      [⟨0, 100, 0⟩, ⟨100, -1, 0⟩] 1 1 =
    GetFromCounts decodeRanks ["Rank(s) 7: 2000".toList, "Rank(s) 8: x".toList]
      [⟨0, 100, 4⟩, ⟨100, -1, 4⟩] 1 1 :=
  GetFromCounts_append decodeRanks ["Rank(s) 0-3: 50 150".toList]
    ["Rank(s) 7: 2000".toList, "Rank(s) 8: x".toList]
    [⟨0, 100, 0⟩, ⟨100, -1, 0⟩] [⟨0, 100, 4⟩, ⟨100, -1, 4⟩] 1 1 (by decide)

theorem binLoop_bounds (val inc : Int) (bins : List Data) :
    (binLoop val inc bins).map Data.bounds = bins.map Data.bounds := by
  induction bins with
  | nil => rfl
  | cons b rest ih =>
      unfold binLoop
      split
      · rfl
      · simp [ih]

theorem countLoop_bounds (numCalls : Int) (nRanks : Nat) (datatypeSize : Int) :
    ∀ (toks : List Str) (bins : List Data),
      (countLoop numCalls nRanks datatypeSize toks bins).1.map Data.bounds =
        bins.map Data.bounds := by
  intro toks
  induction toks with
  | nil => intro bins; rfl
  | cons t rest ih =>
      intro bins
      unfold countLoop
      split
      · exact ih bins
      · split
        · rfl
        · rw [ih, binLoop_bounds]

theorem recordLoop_bounds (decode : Str → Except GoError (List Int))
    (numCalls datatypeSize : Int) :
    ∀ (counts : List Str) (bins bins' : List Data) (err : Option GoError),
      recordLoop decode numCalls datatypeSize counts bins = .ret bins' err →
      bins'.map Data.bounds = bins.map Data.bounds := by
  intro counts
  induction counts with
  | nil =>
      intro bins bins' err h
      simp only [recordLoop, Outcome.ret.injEq] at h
      rw [← h.1]
  | cons c rest ih =>
      intro bins bins' err h
      cases hparts : recordParts c with
      | none =>
          rw [recordLoop_no_delimiter decode numCalls datatypeSize c rest bins hparts] at h
          cases h
      | some p =>
          obtain ⟨descr, toks⟩ := p
          rw [recordLoop_of_parts decode numCalls datatypeSize c rest bins descr toks hparts] at h
          cases hdec : decode descr with
          | error e =>
              rw [hdec] at h
              simp only [Outcome.ret.injEq] at h
              rw [← h.1]
          | ok listRanks =>
              rw [hdec] at h
              simp only at h
              split at h
              · simp only [Outcome.ret.injEq] at h
                rw [← h.1]
              · have hb := countLoop_bounds numCalls listRanks.length datatypeSize toks bins
                split at h
                · rename_i bins1 e heq
                  simp only [Outcome.ret.injEq] at h
                  rw [heq] at hb
                  rw [← h.1]
                  exact hb
                · rename_i bins1 heq
                  rw [heq] at hb
                  rw [ih bins1 bins' err h]
                  exact hb

/-- C18: on every input `GetFromCounts` either panics (no bin list is
returned) or returns, with or without an error, a bin list of the length of
the input list in which every bin has the `Min` and the `Max` of the input
bin at the same place. -/
theorem GetFromCounts_frame (decode : Str → Except GoError (List Int)) (counts : List Str)
    (bins : List Data) (numCalls datatypeSize : Int) :
    GetFromCounts decode counts bins numCalls datatypeSize = .panic ∨
    ∃ bins' err, GetFromCounts decode counts bins numCalls datatypeSize = .ret bins' err ∧
      bins'.length = bins.length ∧
      bins'.map Data.Min = bins.map Data.Min ∧
      bins'.map Data.Max = bins.map Data.Max := by
  cases h : GetFromCounts decode counts bins numCalls datatypeSize with
  | panic => exact Or.inl rfl
  | ret bins' err =>
      refine Or.inr ⟨bins', err, rfl, ?_⟩
      have hb : bins'.map Data.bounds = bins.map Data.bounds := by
        unfold GetFromCounts at h
        split at h
        · simp only [Outcome.ret.injEq] at h
          rw [← h.1]
        · split at h
          · simp only [Outcome.ret.injEq] at h
            rw [← h.1]
          · exact recordLoop_bounds decode numCalls datatypeSize counts bins bins' err h
      refine ⟨?_, ?_, ?_⟩
      · have := congrArg List.length hb
        simpa using this
      · have := congrArg (List.map Prod.fst) hb
        simpa [List.map_map, Function.comp_def, Data.bounds] using this
      · have := congrArg (List.map Prod.snd) hb
        simpa [List.map_map, Function.comp_def, Data.bounds] using this

/-! ## Names of the output files -/

theorem digit_run_unique :
    ∀ (ds1 ds2 r1 r2 : Str), (∀ c ∈ ds1, c.isDigit = true) → (∀ c ∈ ds2, c.isDigit = true) →
      (∃ c r, r1 = c :: r ∧ c.isDigit = false) → (∃ c r, r2 = c :: r ∧ c.isDigit = false) →
      ds1 ++ r1 = ds2 ++ r2 → ds1 = ds2 ∧ r1 = r2 := by
  intro ds1
  induction ds1 with
  | nil =>
      intro ds2 r1 r2 _ h2 ⟨c, r, hr1, hc⟩ _ heq
      cases ds2 with
      | nil => exact ⟨rfl, by simpa using heq⟩
      | cons d ds2 =>
          rw [hr1] at heq
          simp only [List.nil_append, List.cons_append, List.cons.injEq] at heq
          have := h2 d (List.mem_cons_self _ _)
          rw [← heq.1, hc] at this
          cases this
  | cons d ds1 ih =>
      intro ds2 r1 r2 h1 h2 hr1 ⟨c, r, hr2, hc⟩ heq
      cases ds2 with
      | nil =>
          rw [hr2] at heq
          simp only [List.nil_append, List.cons_append, List.cons.injEq] at heq
          have := h1 d (List.mem_cons_self _ _)
          rw [heq.1, hc] at this
          cases this
      | cons e ds2 =>
          simp only [List.cons_append, List.cons.injEq] at heq
          obtain ⟨h3, h4⟩ := ih ds2 r1 r2 (fun x hx => h1 x (List.mem_cons_of_mem _ hx))
            (fun x hx => h2 x (List.mem_cons_of_mem _ hx)) hr1 ⟨c, r, hr2, hc⟩ heq.2
          exact ⟨by rw [heq.1, h3], h4⟩

theorem toDigits_inj {n m : Nat} (h : Nat.toDigits 10 n = Nat.toDigits 10 m) : n = m := by
  have h1 := (toDigits_props n).2.2
  have h2 := (toDigits_props m).2.2
  rw [h] at h1
  omega

theorem toDigits_head (n : Nat) :
    ∃ c r, Nat.toDigits 10 n = c :: r ∧ c.isDigit = true := by
  obtain ⟨hne, hdig, _⟩ := toDigits_props n
  cases hd : Nat.toDigits 10 n with
  | nil => exact absurd hd hne
  | cons c r =>
      refine ⟨c, r, rfl, hdig c ?_⟩
      rw [hd]
      exact List.mem_cons_self _ _

theorem fmtInt_append_inj (a b : Int) (r1 r2 : Str)
    (h1 : ∃ c r, r1 = c :: r ∧ c.isDigit = false)
    (h2 : ∃ c r, r2 = c :: r ∧ c.isDigit = false)
    (heq : fmtInt a ++ r1 = fmtInt b ++ r2) : a = b ∧ r1 = r2 := by
  cases a with
  | ofNat n =>
      cases b with
      | ofNat m =>
          simp only [fmtInt] at heq
          obtain ⟨h3, h4⟩ := digit_run_unique _ _ r1 r2 (toDigits_props n).2.1
            (toDigits_props m).2.1 h1 h2 heq
          exact ⟨by rw [toDigits_inj h3], h4⟩
      | negSucc m =>
          simp only [fmtInt] at heq
          obtain ⟨c, r, hc, hdig⟩ := toDigits_head n
          rw [hc] at heq
          simp only [List.cons_append, List.cons.injEq] at heq
          rw [heq.1] at hdig
          exact absurd hdig (by decide)
  | negSucc n =>
      cases b with
      | ofNat m =>
          simp only [fmtInt] at heq
          obtain ⟨c, r, hc, hdig⟩ := toDigits_head m
          rw [hc] at heq
          simp only [List.cons_append, List.cons.injEq] at heq
          rw [← heq.1] at hdig
          exact absurd hdig (by decide)
      | negSucc m =>
          simp only [fmtInt, List.cons_append, List.cons.injEq, true_and] at heq
          obtain ⟨h3, h4⟩ := digit_run_unique _ _ r1 r2 (toDigits_props (n + 1)).2.1
            (toDigits_props (m + 1)).2.1 h1 h2 heq
          have := toDigits_inj h3
          exact ⟨by rw [show n = m by omega], h4⟩

theorem getOutputFile_eq (join : Str → Str → Str) (dir : Str) (jobid commId rank : Int)
    (b : Data) :
    getOutputFile join dir jobid commId rank b =
      (if dir = [] then id else join dir)
        (("bin.job".toList ++ fmtInt jobid ++ ".comm".toList ++ fmtInt commId ++
            ".rank".toList ++ fmtInt rank ++ "_".toList) ++
          (fmtInt b.Min ++
            (if b.Max = -1 then "+.txt".toList else '-' :: (fmtInt b.Max ++ ".txt".toList)))) := by
  unfold getOutputFile
  by_cases hd : dir = [] <;> by_cases hm : b.Max = -1 <;>
    simp [hd, hm, List.append_assoc]

/-! ### `filepath.Join` on a file name -/

theorem Clean_examples :
    Clean "".toList = ".".toList ∧
    Clean "abc//def//ghi".toList = "abc/def/ghi".toList ∧
    Clean "abc/./../def".toList = "def".toList ∧
    Clean "/abc/def/../../..".toList = "/".toList ∧
    Clean "abc/def/../../../ghi/jkl/../../../mno".toList = "../../mno".toList ∧
    filepathJoin "./out".toList "f.txt".toList = "out/f.txt".toList ∧
    filepathJoin "a".toList "b/".toList = filepathJoin "a".toList "b".toList ∧
    filepathJoin "".toList "".toList = [] := by
  decide

theorem splitGo_char_eq (ch : Char) (s cur : Str) :
    splitGo [ch] 0 (ch :: s) cur = cur.reverse :: splitGo [ch] 0 s [] := by
  rw [splitGo_zero_cons]
  simp [List.isPrefixOf]

theorem splitGo_char_ne (ch c : Char) (s cur : Str) (hc : c ≠ ch) :
    splitGo [ch] 0 (c :: s) cur = splitGo [ch] 0 s (c :: cur) := by
  rw [splitGo_zero_cons]
  simp [List.isPrefixOf, Ne.symm hc]

theorem splitGo_char_none (ch : Char) :
    ∀ (s cur : Str), ch ∉ s → splitGo [ch] 0 s cur = [cur.reverse ++ s] := by
  intro s
  induction s with
  | nil => intro cur _; simp [splitGo]
  | cons c cs ih =>
      intro cur h
      have hc : c ≠ ch := fun hc => h (hc ▸ List.mem_cons_self _ _)
      have hcs : ch ∉ cs := fun hm => h (List.mem_cons_of_mem _ hm)
      rw [splitGo_char_ne ch c _ _ hc, ih (c :: cur) hcs]
      simp

theorem splitGo_char_last (ch : Char) (a : Str) (ha : ch ∉ a) :
    ∀ (s cur : Str),
      splitGo [ch] 0 (s ++ ch :: a) cur = splitGo [ch] 0 s cur ++ [a] := by
  intro s
  induction s with
  | nil =>
      intro cur
      rw [List.nil_append, splitGo_char_eq, splitGo_char_none ch a [] ha]
      simp [splitGo]
  | cons c cs ih =>
      intro cur
      by_cases hc : c = ch
      · subst hc
        rw [List.cons_append, splitGo_char_eq, splitGo_char_eq, ih []]
        rfl
      · rw [List.cons_append, splitGo_char_ne ch c _ _ hc, splitGo_char_ne ch c _ _ hc,
          ih (c :: cur)]

theorem joinWith_append_singleton (sep a : Str) :
    ∀ L : List Str, joinWith sep (L ++ [a]) =
      (if L = [] then [] else joinWith sep L ++ sep) ++ a := by
  intro L
  induction L with
  | nil => simp [joinWith]
  | cons s rest ih =>
      cases rest with
      | nil => simp [joinWith]
      | cons t rest' =>
          have hstep : joinWith sep ((s :: t :: rest') ++ [a]) =
              s ++ sep ++ joinWith sep ((t :: rest') ++ [a]) := rfl
          rw [hstep, ih]
          simp [joinWith]

theorem filepathJoin_base (dir : Str) (hdir : dir ≠ []) :
    ∃ pre : Str, ∀ a : Str, isBaseName a → filepathJoin dir a = pre ++ a := by
  refine ⟨(if (dir.head? == some '/') = true then "/".toList else []) ++
    (if ((Split dir "/".toList).foldl (cleanStep (dir.head? == some '/')) []).reverse = []
      then []
      else joinWith "/".toList
        ((Split dir "/".toList).foldl (cleanStep (dir.head? == some '/')) []).reverse ++
        "/".toList), ?_⟩
  intro a ha
  obtain ⟨hslash, hne, hdot, hdotdot⟩ := ha
  have hsl : "/".toList = ['/'] := rfl
  have hpath : dir ++ "/".toList ++ a ≠ [] := by
    cases dir with
    | nil => exact absurd rfl hdir
    | cons c cs => simp
  have hhead : (dir ++ "/".toList ++ a).head? = dir.head? := by
    cases dir with
    | nil => exact absurd rfl hdir
    | cons c cs => simp
  have hsplit : Split (dir ++ "/".toList ++ a) "/".toList = Split dir "/".toList ++ [a] := by
    rw [hsl]
    simp only [Split, List.append_assoc, List.singleton_append]
    exact splitGo_char_last '/' a hslash dir []
  have hstep : ∀ (rooted : Bool) (st : List Str), cleanStep rooted st a = a :: st := by
    intro rooted st
    unfold cleanStep
    rw [if_neg hne, if_neg hdot, if_neg hdotdot]
  unfold filepathJoin Clean
  rw [if_pos hdir, if_neg hpath]
  simp only [hhead, hsplit, List.foldl_append, List.foldl_cons, List.foldl_nil, hstep,
    List.reverse_cons, joinWith_append_singleton]
  rw [if_neg]
  · simp only [List.append_assoc]
  · cases a with
    | nil => exact absurd rfl hne
    | cons c cs => simp

theorem filepathJoin_inj (dir : Str) (hdir : dir ≠ []) (a b : Str) (ha : isBaseName a)
    (hb : isBaseName b) (h : filepathJoin dir a = filepathJoin dir b) : a = b := by
  obtain ⟨pre, hpre⟩ := filepathJoin_base dir hdir
  rw [hpre a ha, hpre b hb] at h
  exact List.append_cancel_left h

theorem fmtInt_no_slash (x : Int) : '/' ∉ fmtInt x := by
  intro h
  cases x with
  | ofNat n =>
      simp only [fmtInt] at h
      exact absurd ((toDigits_props n).2.1 _ h) (by decide)
  | negSucc n =>
      simp only [fmtInt, List.mem_cons] at h
      rcases h with h | h
      · exact absurd h (by decide)
      · exact absurd ((toDigits_props (n + 1)).2.1 _ h) (by decide)

theorem getOutputFile_dir (join : Str → Str → Str) (dir : Str) (jobid commId rank : Int)
    (b : Data) :
    getOutputFile join dir jobid commId rank b =
      if dir = [] then getOutputFile join [] jobid commId rank b
      else join dir (getOutputFile join [] jobid commId rank b) := by
  rw [getOutputFile_eq, getOutputFile_eq join []]
  by_cases hd : dir = [] <;> simp [hd]

theorem getOutputFile_isBaseName (join : Str → Str → Str) (jobid commId rank : Int)
    (b : Data) : isBaseName (getOutputFile join [] jobid commId rank b) := by
  rw [getOutputFile_eq]
  simp only [if_true, id]
  have hhead : ∃ rest : Str,
      ("bin.job".toList ++ fmtInt jobid ++ ".comm".toList ++ fmtInt commId ++
          ".rank".toList ++ fmtInt rank ++ "_".toList) ++
        (fmtInt b.Min ++
          (if b.Max = -1 then "+.txt".toList else '-' :: (fmtInt b.Max ++ ".txt".toList))) =
      'b' :: rest := ⟨_, by simp [List.append_assoc]; rfl⟩
  obtain ⟨rest, hrest⟩ := hhead
  refine ⟨?_, ?_, ?_, ?_⟩
  · have h1 := fmtInt_no_slash jobid
    have h2 := fmtInt_no_slash commId
    have h3 := fmtInt_no_slash rank
    have h4 := fmtInt_no_slash b.Min
    have h5 := fmtInt_no_slash b.Max
    have l1 : '/' ∉ "bin.job".toList := by decide
    have l2 : '/' ∉ ".comm".toList := by decide
    have l3 : '/' ∉ ".rank".toList := by decide
    have l4 : '/' ∉ "_".toList := by decide
    have l5 : '/' ∉ "+.txt".toList := by decide
    have l6 : '/' ∉ ".txt".toList := by decide
    by_cases hm : b.Max = -1
    · simp only [hm, if_true, List.mem_append, not_or]
      exact ⟨⟨⟨⟨⟨⟨⟨l1, h1⟩, l2⟩, h2⟩, l3⟩, h3⟩, l4⟩, h4, l5⟩
    · simp only [hm, if_false, List.mem_append, List.mem_cons, not_or]
      exact ⟨⟨⟨⟨⟨⟨⟨l1, h1⟩, l2⟩, h2⟩, l3⟩, h3⟩, l4⟩, h4, by decide, h5, l6⟩
  · rw [hrest]; simp
  · rw [hrest]
    intro hcon
    exact absurd (List.cons.inj hcon).1 (by decide)
  · rw [hrest]
    intro hcon
    exact absurd (List.cons.inj hcon).1 (by decide)

theorem getOutputFile_name_inj (join : Str → Str → Str) (jobid commId rank : Int)
    (b b' : Data)
    (h : getOutputFile join [] jobid commId rank b =
      getOutputFile join [] jobid commId rank b') :
    b.Min = b'.Min ∧ b.Max = b'.Max := by
  rw [getOutputFile_eq, getOutputFile_eq] at h
  simp only [if_true, id] at h
  have hname := List.append_cancel_left h
  have hsuf : ∀ x : Data, ∃ c r,
      (if x.Max = -1 then "+.txt".toList else '-' :: (fmtInt x.Max ++ ".txt".toList)) = c :: r ∧
        c.isDigit = false := by
    intro x
    by_cases hx : x.Max = -1
    · exact ⟨'+', ".txt".toList, by simp [hx], by decide⟩
    · exact ⟨'-', fmtInt x.Max ++ ".txt".toList, by simp [hx], by decide⟩
  obtain ⟨hmin, hrest⟩ := fmtInt_append_inj _ _ _ _ (hsuf b) (hsuf b') hname
  refine ⟨hmin, ?_⟩
  by_cases hb : b.Max = -1 <;> by_cases hb' : b'.Max = -1
  · rw [hb, hb']
  · simp only [hb, hb', if_true, if_false] at hrest
    exact absurd (List.cons.inj hrest).1 (by decide)
  · simp only [hb, hb', if_true, if_false] at hrest
    exact absurd (List.cons.inj hrest).1 (by decide)
  · simp only [hb, hb', if_false, List.cons.injEq, true_and] at hrest
    exact (fmtInt_append_inj _ _ _ _ ⟨'.', "txt".toList, rfl, by decide⟩
      ⟨'.', "txt".toList, rfl, by decide⟩ hrest).1

theorem getOutputFile_bounds_inj (join : Str → Str → Str) (dir : Str)
    (jobid commId rank : Int)
    (hjoin : dir ≠ [] → ∀ a b : Str, isBaseName a → isBaseName b →
      join dir a = join dir b → a = b) (b b' : Data)
    (h : getOutputFile join dir jobid commId rank b =
      getOutputFile join dir jobid commId rank b') :
    b.Min = b'.Min ∧ b.Max = b'.Max := by
  rw [getOutputFile_dir, getOutputFile_dir join dir jobid commId rank b'] at h
  apply getOutputFile_name_inj join jobid commId rank
  by_cases hd : dir = []
  · simpa [hd] using h
  · simp only [hd, if_false] at h
    exact hjoin hd _ _ (getOutputFile_isBaseName join jobid commId rank b)
      (getOutputFile_isBaseName join jobid commId rank b') h

/-- C19, failing instance: the thresholds `[-1, 0]` are strictly increasing
and `Create` gives the bins `(0, -1)`, `(-1, 0)`, `(0, -1)`: the first and the
last bin get the same path, `out/bin.job3.comm1.rank2_0+.txt`. -/
theorem getOutputFile_collides_on_sentinel_threshold :
    List.Pairwise (· < ·) [(-1 : Int), 0] ∧
    Create [-1, 0] = some [⟨0, -1, 0⟩, ⟨-1, 0, 0⟩, ⟨0, -1, 0⟩] ∧
    getOutputFile filepathJoin "out".toList 3 1 2 ⟨0, -1, 0⟩ =
      "out/bin.job3.comm1.rank2_0+.txt".toList ∧
    ¬ ([(⟨0, -1, 0⟩ : Data), ⟨-1, 0, 0⟩, ⟨0, -1, 0⟩].map
        (getOutputFile filepathJoin "out".toList 3 1 2)).Nodup := by
  refine ⟨by decide, by decide, by decide, by decide⟩

/-- C19, amended: for a non-empty strictly increasing threshold list in which
the sentinel -1 does not occur, and every `dir`, `jobid`, `commId` and `rank`,
the paths that `getOutputFile` gives for the bins of `Create` are pairwise
distinct. Of `filepath.Join` only this is used: under a non-empty `dir` it
sends two distinct file names that hold no separator (and are none of `""`,
`"."`, `".."`) to distinct paths. -/
theorem getOutputFile_paths_distinct (join : Str → Str → Str) (dir : Str)
    (jobid commId rank : Int) (T : List Int) (hT : T ≠ []) (hinc : T.Pairwise (· < ·))
    (hs : (-1 : Int) ∉ T)
    (hjoin : dir ≠ [] → ∀ a b : Str, isBaseName a → isBaseName b →
      join dir a = join dir b → a = b) :
    ∃ bins, Create T = some bins ∧
      (bins.map (getOutputFile join dir jobid commId rank)).Nodup := by
  refine ⟨_, Create_eq_mkBins T hT, ?_⟩
  have hTnd : T.Nodup := hinc.imp (fun h => ne_of_lt h)
  have hmax : ((mkBins 0 (T ++ [-1])).map Data.Max).Nodup := by
    rw [mkBins_map_Max]
    refine List.Nodup.append hTnd (List.nodup_singleton _) ?_
    intro x hx hx1
    rw [List.mem_singleton] at hx1
    exact hs (hx1 ▸ hx)
  have hnd : (mkBins 0 (T ++ [-1])).Nodup := List.Nodup.of_map _ hmax
  refine List.Nodup.map_on ?_ hnd
  intro b hb b' hb' heq
  obtain ⟨h1, h2⟩ := getOutputFile_bounds_inj join dir jobid commId rank hjoin b b' heq
  have h3 := mkBins_Size _ _ b hb
  have h4 := mkBins_Size _ _ b' hb'
  cases b
  cases b'
  simp only at h1 h2 h3 h4
  simp [h1, h2, h3, h4]

theorem getOutputFile_paths_distinct_witness :
    ∃ bins, Create [100, 1000] = some bins ∧
      (bins.map (getOutputFile filepathJoin "./out/".toList 3 1 2)).Nodup :=
  getOutputFile_paths_distinct filepathJoin "./out/".toList 3 1 2 [100, 1000] (by decide)
    (by decide) (by decide) (fun hd => filepathJoin_inj "./out/".toList hd)

end Bins
